import Mathlib

/-!
Shallow embedding of the TMJ map-merge engine (`src/utils/tmjMerge.ts`) and
the color engine (`src/utils/colorTools.ts`).

Modelling conventions:
* JavaScript numbers holding tile coordinates/offsets are modelled as `Int`;
  counts, sizes and GIDs (always non-negative in the source) as `Nat`.
* `computeBounds` starts its fold from `Infinity` / `-Infinity`, so its
  arithmetic is modelled on `ENum`, an `Int` extended with infinities and a
  NaN element mirroring IEEE special values as far as the source exercises
  them.
* `Record<number, number>` (GidRemap) is modelled extensionally as
  `Nat → Option Nat`; `Record<string, number>` with insertion-ordered keys
  (the color-bucket counts) as an association list updated in place.
* A `Map` from the JSON identity key of a tileset to its index in
  `globalTilesets` is represented by searching `globalTilesets` itself for
  the first entry with the same key: the map's content is exactly the set of
  keys of `globalTilesets` (each key is inserted exactly when its tileset is
  appended), so `List.find?` returns the same entry the map lookup does.
* JSON string keys (`JSON.stringify` of the identity subset, `"r,g,b,a"`
  color keys, `"qr,qg,qb,qa"` bucket keys) are modelled by the tuples they
  serialize: the serialization is injective on the values that occur, so
  string equality coincides with componentwise equality.
-/

namespace TmjApp

/-- A JavaScript number as used by `computeBounds`: an integer, one of the two
infinities, or NaN (which arises only from `±Infinity - ±Infinity`). -/
inductive ENum where
  | negInf : ENum
  | int : Int → ENum
  | posInf : ENum
  | nan : ENum
deriving DecidableEq, Repr

namespace ENum

/-- `Math.min` on `ENum` (NaN propagates). -/
def emin : ENum → ENum → ENum
  | nan, _ => nan
  | _, nan => nan
  | negInf, _ => negInf
  | _, negInf => negInf
  | posInf, b => b
  | a, posInf => a
  | int a, int b => int (min a b)

/-- `Math.max` on `ENum` (NaN propagates). -/
def emax : ENum → ENum → ENum
  | nan, _ => nan
  | _, nan => nan
  | posInf, _ => posInf
  | _, posInf => posInf
  | negInf, b => b
  | a, negInf => a
  | int a, int b => int (max a b)

/-- JavaScript subtraction on `ENum`. -/
def esub : ENum → ENum → ENum
  | nan, _ => nan
  | _, nan => nan
  | int a, int b => int (a - b)
  | posInf, posInf => nan
  | posInf, _ => posInf
  | negInf, negInf => nan
  | negInf, _ => negInf
  | int _, posInf => negInf
  | int _, negInf => posInf

/-- Extract an `Int` (junk value 0 on non-finite numbers; only used after the
merge orchestrator has ruled out the empty-input case, where every bounds
component is finite). -/
def toInt : ENum → Int
  | int a => a
  | _ => 0

end ENum

/-! ### TMJ data model (`src/types/tmj.ts`) -/

structure RawProperty where
  name : String
  ptype : String
  value : String
deriving DecidableEq, Repr

structure RawTileLayer where
  id : Nat
  name : String
  x : Int
  y : Int
  width : Nat
  height : Nat
  data : List Nat
  visible : Bool
  opacity : Int
  properties : List RawProperty
deriving DecidableEq, Repr

structure RawObject where
  id : Nat
  name : String
  otype : String
  x : Int
  y : Int
  width : Option Int
  height : Option Int
  gid : Option Nat
  properties : List RawProperty
deriving DecidableEq, Repr

structure RawObjectGroup where
  id : Nat
  name : String
  objects : List RawObject
  visible : Bool
  opacity : Int
  properties : List RawProperty
deriving DecidableEq, Repr

/-- A layer tagged by its `type` field. -/
inductive RawLayer where
  | tilelayer : RawTileLayer → RawLayer
  | objectgroup : RawObjectGroup → RawLayer
  | imagelayer (name : String) (image : Option String) : RawLayer
  | group (name : String) : RawLayer
deriving DecidableEq, Repr

structure RawTilesetRef where
  firstgid : Nat
  source : Option String
  name : Option String
  image : Option String
  tilewidth : Option Nat
  tileheight : Option Nat
  tilecount : Option Nat
  columns : Option Nat
deriving DecidableEq, Repr

structure RawTmj where
  height : Nat
  width : Nat
  tileheight : Nat
  tilewidth : Nat
  layers : List RawLayer
  tilesets : List RawTilesetRef
  orientation : String
  renderorder : String
  infinite : Bool
  properties : List RawProperty
deriving DecidableEq, Repr

structure MapChunk where
  id : String
  tmj : RawTmj
  offsetX : Int
  offsetY : Int
deriving DecidableEq, Repr

instance : Inhabited MapChunk :=
  ⟨{ id := ""
     tmj := { height := 0, width := 0, tileheight := 0, tilewidth := 0
              layers := [], tilesets := [], orientation := "", renderorder := ""
              infinite := false, properties := [] }
     offsetX := 0, offsetY := 0 }⟩

/-- `GidRemap = Record<number, number>`, modelled extensionally. -/
def GidRemap : Type := Nat → Option Nat

/-- The empty record `{}`. -/
def emptyRemap : GidRemap := fun _ => none

/-! ### `computeBounds` -/

structure Bounds where
  minX : ENum
  minY : ENum
  maxX : ENum
  maxY : ENum
  width : ENum
  height : ENum
deriving DecidableEq, Repr

/-- Body of the `computeBounds` loop: update the running
`(minX, minY, maxX, maxY)` with one chunk's rectangle. -/
def boundsStep (acc : ENum × ENum × ENum × ENum) (chunk : MapChunk) :
    ENum × ENum × ENum × ENum :=
  let w : Int := chunk.tmj.width
  let h : Int := chunk.tmj.height
  let x0 : Int := chunk.offsetX
  let y0 : Int := chunk.offsetY
  let x1 : Int := x0 + w
  let y1 : Int := y0 + h
  (acc.1.emin (.int x0), acc.2.1.emin (.int y0),
   acc.2.2.1.emax (.int x1), acc.2.2.2.emax (.int y1))

def computeBounds (chunks : List MapChunk) : Bounds :=
  let st := chunks.foldl boundsStep
    (ENum.posInf, ENum.posInf, ENum.negInf, ENum.negInf)
  { minX := st.1
    minY := st.2.1
    maxX := st.2.2.1
    maxY := st.2.2.2
    width := st.2.2.1.esub st.1
    height := st.2.2.2.esub st.2.1 }

/-- Bounds with the `ENum` components extracted to `Int`; the merge pipeline
only reads bounds after the non-empty check, where all components are
finite integers. -/
structure IBounds where
  minX : Int
  minY : Int
  maxX : Int
  maxY : Int
  width : Int
  height : Int
deriving DecidableEq, Repr

def Bounds.toIBounds (b : Bounds) : IBounds :=
  { minX := b.minX.toInt, minY := b.minY.toInt, maxX := b.maxX.toInt
    maxY := b.maxY.toInt, width := b.width.toInt, height := b.height.toInt }

/-! ### `mergeTilesets` -/

/-- The deduplication identity of a tileset: the fields serialized by
`JSON.stringify` in the source, as a value type.  `ts.source || null` turns
the empty string (and a missing field) into `null`, which `normStr`
reproduces. -/
structure TilesetKey where
  source : Option String
  name : Option String
  image : Option String
  tilewidth : Option Nat
  tileheight : Option Nat
  tilecount : Option Nat
  columns : Option Nat
deriving DecidableEq, Repr

/-- JavaScript `s || null` on an optional string. -/
def normStr : Option String → Option String
  | some "" => none
  | o => o

def keyOf (ts : RawTilesetRef) : TilesetKey :=
  { source := normStr ts.source
    name := normStr ts.name
    image := normStr ts.image
    tilewidth := ts.tilewidth
    tileheight := ts.tileheight
    tilecount := ts.tilecount
    columns := ts.columns }

/-- The loop `for (local = 0; local < tileCount; local++)
   remap[oldFirstGid + local] = newFirstGid + local`. -/
def addRemapRange (remap : GidRemap) (oldFirstGid newFirstGid tileCount : Nat) :
    GidRemap :=
  (List.range tileCount).foldl
    (fun m localIdx =>
      fun g => if g = oldFirstGid + localIdx then some (newFirstGid + localIdx) else m g)
    remap

/-- The tileset registry threaded through `mergeTilesets`: the accumulated
`globalTilesets` and the `nextFirstGid` counter.  (The key→index `Map` is
recoverable from `globalTilesets`, see the header comment.) -/
structure Registry where
  globalTilesets : List RawTilesetRef
  nextFirstGid : Nat
deriving Repr

/-- Body of the inner loop of `mergeTilesets`: process one tileset reference
of one chunk, updating the registry and the chunk's remap. -/
def processTileset (reg : Registry) (remap : GidRemap) (ts : RawTilesetRef) :
    Registry × GidRemap :=
  match reg.globalTilesets.find? (fun g => keyOf g == keyOf ts) with
  | some globalTs =>
      (reg, addRemapRange remap ts.firstgid globalTs.firstgid (ts.tilecount.getD 0))
  | none =>
      let newTs : RawTilesetRef := { ts with firstgid := reg.nextFirstGid }
      let reg' : Registry :=
        { globalTilesets := reg.globalTilesets ++ [newTs]
          nextFirstGid := reg.nextFirstGid + ts.tilecount.getD 0 }
      (reg', addRemapRange remap ts.firstgid newTs.firstgid (ts.tilecount.getD 0))

/-- Uncurried step over a (registry, chunk-remap) pair. -/
def processTilesetStep (acc : Registry × GidRemap) (ts : RawTilesetRef) :
    Registry × GidRemap :=
  processTileset acc.1 acc.2 ts

/-- Process all tilesets of one chunk; its `GidRemap` starts out as `{}`. -/
def processChunkTilesets (reg : Registry) (tss : List RawTilesetRef) :
    Registry × GidRemap :=
  tss.foldl processTilesetStep (reg, emptyRemap)

/-- Per-chunk step of `mergeTilesets`: process the chunk's tilesets and append
its finished remap. -/
def mergeTilesetsChunkStep (acc : Registry × List GidRemap) (chunk : MapChunk) :
    Registry × List GidRemap :=
  let r := processChunkTilesets acc.1 chunk.tmj.tilesets
  (r.1, acc.2 ++ [r.2])

def mergeTilesets (chunks : List MapChunk) : List RawTilesetRef × List GidRemap :=
  let st := chunks.foldl mergeTilesetsChunkStep
    ({ globalTilesets := [], nextFirstGid := 1 }, [])
  (st.1.globalTilesets, st.2)

/-- The registry transition of `processTileset` (the registry result does not
depend on the remap argument). -/
def regStep (reg : Registry) (ts : RawTilesetRef) : Registry :=
  match reg.globalTilesets.find? (fun g => keyOf g == keyOf ts) with
  | some _ => reg
  | none =>
      { globalTilesets :=
          reg.globalTilesets ++ [{ ts with firstgid := reg.nextFirstGid }]
        nextFirstGid := reg.nextFirstGid + ts.tilecount.getD 0 }

/-- The `firstgid` the registry has recorded for an identity key (0 when the
key is not yet registered). -/
def firstgidOfKey (reg : Registry) (k : TilesetKey) : Nat :=
  match reg.globalTilesets.find? (fun g => keyOf g == k) with
  | some e => e.firstgid
  | none => 0

/-- The per-chunk remaps produced by `mergeTilesets`, with the registry
threaded from chunk to chunk. -/
def chunkRemaps (reg : Registry) : List MapChunk → List GidRemap
  | [] => []
  | c :: rest =>
      (processChunkTilesets reg c.tmj.tilesets).2 ::
        chunkRemaps (processChunkTilesets reg c.tmj.tilesets).1 rest

/-! ### `mergeTileLayers` -/

/-- Innermost body of the tile-layer copy loop: one source cell
`(localY, localX)`: skip empty cells, remap the GID, and write it to the
shifted destination cell unless that cell falls outside the merged bounds. -/
def writeCell (src : RawTileLayer) (offsetX offsetY : Int) (bw bh : Nat)
    (remap : GidRemap) (acc2 : List Nat) (localY localX : Nat) : List Nat :=
  let srcIndex := localY * src.width + localX
  let oldGid := src.data.getD srcIndex 0
  if oldGid = 0 then acc2
  else
    let newGid := (remap oldGid).getD oldGid
    let globalX : Int := offsetX + localX
    let globalY : Int := offsetY + localY
    if globalX < 0 ∨ globalY < 0 ∨ (bw : Int) ≤ globalX ∨ (bh : Int) ≤ globalY
    then acc2
    else acc2.set (globalY * bw + globalX).toNat newGid

/-- The destination `data` array of one merged tile layer: the double loop over
the source layer's cells, writing each remapped non-zero GID to its shifted
destination cell when that cell lies within the merged bounds. -/
def mergeOneTileLayerData (src : RawTileLayer) (offsetX offsetY : Int)
    (bw bh : Nat) (remap : GidRemap) : List Nat :=
  (List.range src.height).foldl
    (fun acc localY =>
      (List.range src.width).foldl
        (fun acc2 localX => writeCell src offsetX offsetY bw bh remap acc2 localY localX)
        acc)
    (List.replicate (bw * bh) 0)

/-- Per-layer step of `mergeTileLayers`: a tile layer is copied into a fresh
destination layer carrying the next sequential id; other layer variants are
skipped. -/
def tileLayerStep (offsetX offsetY : Int) (bw bh : Nat) (remap : GidRemap)
    (acc2 : List RawTileLayer × Nat) (layer : RawLayer) :
    List RawTileLayer × Nat :=
  match layer with
  | .tilelayer src =>
      let dest : RawTileLayer :=
        { src with
          id := acc2.2
          x := 0
          y := 0
          width := bw
          height := bh
          data := mergeOneTileLayerData src offsetX offsetY bw bh remap }
      (acc2.1 ++ [dest], acc2.2 + 1)
  | _ => acc2

/-- Per-chunk step of `mergeTileLayers`. -/
def tileChunkStep (chunks : List MapChunk) (bounds : IBounds)
    (gidRemaps : List GidRemap) (acc : List RawTileLayer × Nat) (idx : Nat) :
    List RawTileLayer × Nat :=
  let chunk := chunks.getD idx default
  let remap := gidRemaps.getD idx emptyRemap
  let offsetX := chunk.offsetX - bounds.minX
  let offsetY := chunk.offsetY - bounds.minY
  chunk.tmj.layers.foldl
    (tileLayerStep offsetX offsetY bounds.width.toNat bounds.height.toNat remap)
    acc

def mergeTileLayers (chunks : List MapChunk) (bounds : IBounds)
    (gidRemaps : List GidRemap) : List RawTileLayer :=
  let st := (List.range chunks.length).foldl
    (tileChunkStep chunks bounds gidRemaps) ([], 1)
  st.1

/-! ### `mergeObjectGroups` -/

/-- Per-object step: copy the object with the next sequential object id,
shift its pixel coordinates, and remap its `gid` when present. -/
def objStep (offsetPixelsX offsetPixelsY : Int) (remap : GidRemap)
    (acc3 : List RawObject × Nat) (obj : RawObject) : List RawObject × Nat :=
  let newObj : RawObject :=
    { obj with
      id := acc3.2
      x := obj.x + offsetPixelsX
      y := obj.y + offsetPixelsY
      gid := match obj.gid with
        | some g => some ((remap g).getD g)
        | none => none }
  (acc3.1 ++ [newObj], acc3.2 + 1)

/-- Per-layer step of `mergeObjectGroups`: an object group is copied with the
next sequential group id; other layer variants are skipped.  The running
state is `(groups so far, nextGroupId, nextObjectId)`. -/
def objGroupStep (offsetPixelsX offsetPixelsY : Int) (remap : GidRemap)
    (acc2 : List RawObjectGroup × Nat × Nat) (layer : RawLayer) :
    List RawObjectGroup × Nat × Nat :=
  match layer with
  | .objectgroup src =>
      let r := src.objects.foldl (objStep offsetPixelsX offsetPixelsY remap)
        ([], acc2.2.2)
      let dest : RawObjectGroup :=
        { src with id := acc2.2.1, objects := r.1 }
      (acc2.1 ++ [dest], acc2.2.1 + 1, r.2)
  | _ => acc2

/-- Per-chunk step of `mergeObjectGroups`. -/
def objChunkStep (chunks : List MapChunk) (bounds : IBounds)
    (gidRemaps : List GidRemap) (tilewidth tileheight : Nat)
    (acc : List RawObjectGroup × Nat × Nat) (idx : Nat) :
    List RawObjectGroup × Nat × Nat :=
  let chunk := chunks.getD idx default
  let remap := gidRemaps.getD idx emptyRemap
  let offsetTilesX := chunk.offsetX - bounds.minX
  let offsetTilesY := chunk.offsetY - bounds.minY
  let offsetPixelsX := offsetTilesX * tilewidth
  let offsetPixelsY := offsetTilesY * tileheight
  chunk.tmj.layers.foldl (objGroupStep offsetPixelsX offsetPixelsY remap) acc

def mergeObjectGroups (chunks : List MapChunk) (bounds : IBounds)
    (gidRemaps : List GidRemap) (tilewidth tileheight : Nat) :
    List RawObjectGroup :=
  let st := (List.range chunks.length).foldl
    (objChunkStep chunks bounds gidRemaps tilewidth tileheight) ([], 1, 1)
  st.1

/-! ### `mergeTmjMaps` -/

/-- The distinct validation failures thrown by `mergeTmjMaps`; each carries a
distinct message string in the source (see `MergeError.message`). -/
inductive MergeError where
  | noMapsToMerge : MergeError
  | dimensionMismatch : MergeError
  | infiniteNotSupported : MergeError
deriving DecidableEq, Repr

def MergeError.message : MergeError → String
  | .noMapsToMerge => "No maps to merge"
  | .dimensionMismatch => "All maps must use same tilewidth/tileheight"
  | .infiniteNotSupported => "Infinite maps are not supported in this merger"

/-- The validation loop of `mergeTmjMaps`: for each chunk in order, first the
tile-dimension check, then the infinite check. -/
def validateChunks (tilewidth tileheight : Nat) : List MapChunk → Except MergeError Unit
  | [] => .ok ()
  | c :: rest =>
      if c.tmj.tilewidth ≠ tilewidth ∨ c.tmj.tileheight ≠ tileheight then
        .error .dimensionMismatch
      else if c.tmj.infinite then
        .error .infiniteNotSupported
      else
        validateChunks tilewidth tileheight rest

def mergeTmjMaps (chunks : List MapChunk) : Except MergeError RawTmj :=
  match chunks with
  | [] => .error .noMapsToMerge
  | c0 :: _ =>
      let tilewidth := c0.tmj.tilewidth
      let tileheight := c0.tmj.tileheight
      match validateChunks tilewidth tileheight chunks with
      | .error e => .error e
      | .ok _ =>
          let bounds := (computeBounds chunks).toIBounds
          let r := mergeTilesets chunks
          let tileLayers := mergeTileLayers chunks bounds r.2
          let objectGroups := mergeObjectGroups chunks bounds r.2 tilewidth tileheight
          let template := c0.tmj
          .ok { template with
                width := bounds.width.toNat
                height := bounds.height.toNat
                layers := tileLayers.map RawLayer.tilelayer
                  ++ objectGroups.map RawLayer.objectgroup
                tilesets := r.1 }

/-! ### Color engine (`src/utils/colorTools.ts`) -/

structure Color where
  r : Nat
  g : Nat
  b : Nat
  a : Nat
deriving DecidableEq, Repr

instance : Inhabited Color := ⟨⟨0, 0, 0, 0⟩⟩

/-- `PaletteChange`.  The source names the first field `from`, a reserved word
in Lean, is `fromColor`, and so is `to`, hence `toColor`. -/
structure PaletteChange where
  fromColor : Color
  toColor : Color
deriving DecidableEq, Repr

/-- The key string `"r,g,b,a"`, modelled by the tuple it serializes (decimal
representations contain no comma, so string equality is componentwise
equality). -/
def colorToKey (c : Color) : Nat × Nat × Nat × Nat := (c.r, c.g, c.b, c.a)

def colorDistanceSq (c1 c2 : Color) : Int :=
  let dr : Int := (c1.r : Int) - (c2.r : Int)
  let dg : Int := (c1.g : Int) - (c2.g : Int)
  let db : Int := (c1.b : Int) - (c2.b : Int)
  let da : Int := (c1.a : Int) - (c2.a : Int)
  dr * dr + dg * dg + db * db + da * da

/-- A quantization bucket key `"qr,qg,qb,qa"`, as the tuple it serializes. -/
def quantizeColor (r g b a : Nat) : Nat × Nat × Nat × Nat :=
  ((r >>> 4) &&& 0x0f, (g >>> 4) &&& 0x0f, (b >>> 4) &&& 0x0f, (a >>> 4) &&& 0x0f)

def dequantizeColor (key : Nat × Nat × Nat × Nat) : Color :=
  let expand : Nat → Nat := fun v => (v <<< 4) ||| (v &&& 0x0f)
  { r := expand key.1, g := expand key.2.1, b := expand key.2.2.1
    a := expand key.2.2.2 }

/-- `ImageData`: the flat RGBA byte array is modelled as the list of the
pixels it encodes, four consecutive bytes each (the source only ever reads
and writes whole aligned pixels). -/
structure ImageData where
  width : Nat
  height : Nat
  data : List Color
deriving DecidableEq, Repr

/-- The coordinates visited by `for (v = 0; v < len; v += sampleStep)`
(for a positive step). -/
def sampleCoords (len step : Nat) : List Nat :=
  (List.range ((len + step - 1) / step)).map (· * step)

/-- The pixels visited by the sampling loops of `extractDominantColors`,
row-major with stride `sampleStep` in both axes. -/
def sampledPixels (img : ImageData) (sampleStep : Nat) : List Color :=
  (sampleCoords img.height sampleStep).flatMap
    (fun y => (sampleCoords img.width sampleStep).map
      (fun x => img.data.getD (y * img.width + x) default))

/-- `counts[key] = (counts[key] || 0) + 1` on an insertion-ordered record:
increment the existing entry in place, or append a fresh one. -/
def bumpCount (counts : List ((Nat × Nat × Nat × Nat) × Nat))
    (key : Nat × Nat × Nat × Nat) : List ((Nat × Nat × Nat × Nat) × Nat) :=
  match counts with
  | [] => [(key, 1)]
  | (k, n) :: rest =>
      if k = key then (k, n + 1) :: rest else (k, n) :: bumpCount rest key

/-- One sampled pixel: skip fully transparent pixels, count the bucket of the
rest. -/
def countStep (cs : List ((Nat × Nat × Nat × Nat) × Nat)) (c : Color) :
    List ((Nat × Nat × Nat × Nat) × Nat) :=
  if c.a = 0 then cs else bumpCount cs (quantizeColor c.r c.g c.b c.a)

/-- The bucket-count record built by the sampling loops, keys in
first-encounter order (JavaScript objects enumerate non-index string keys in
insertion order). -/
def bucketCounts (img : ImageData) (sampleStep : Nat) :
    List ((Nat × Nat × Nat × Nat) × Nat) :=
  (sampledPixels img sampleStep).foldl countStep []

/-- Insert an entry into a count-descending list, after strictly greater
counts and before lower-or-equal ones — the position a stable
descending-by-count sort gives an element relative to later-listed ones. -/
def insertByCountDesc (x : (Nat × Nat × Nat × Nat) × Nat) :
    List ((Nat × Nat × Nat × Nat) × Nat) → List ((Nat × Nat × Nat × Nat) × Nat)
  | [] => [x]
  | y :: ys => if x.2 < y.2 then y :: insertByCountDesc x ys else x :: y :: ys

/-- `entries.sort((a, b) => b[1] - a[1])`: a stable sort by descending count
(`Array.prototype.sort` is stable per the ECMAScript specification). -/
def sortByCountDesc :
    List ((Nat × Nat × Nat × Nat) × Nat) → List ((Nat × Nat × Nat × Nat) × Nat)
  | [] => []
  | x :: rest => insertByCountDesc x (sortByCountDesc rest)

def extractDominantColors (img : ImageData) (maxColors : Nat) (sampleStep : Nat) :
    List Color :=
  let entries := sortByCountDesc (bucketCounts img sampleStep)
  ((entries.take maxColors).map Prod.fst).map dequantizeColor

/-! ### `applyColorMappingsToImageData` -/

/-- Writing a byte into a `Uint8ClampedArray` clamps it to `[0, 255]` (the
model's bytes are `Nat`, so only the upper clamp can act). -/
def clampByte (n : Nat) : Nat := min n 255

def clampColor (c : Color) : Color :=
  ⟨clampByte c.r, clampByte c.g, clampByte c.b, clampByte c.a⟩

/-- Exact mode body: `fromKeys.indexOf(key)` over the precomputed key list,
yielding `changes[idx].to` when found. -/
def exactReplacement (changes : List PaletteChange) (pixelColor : Color) :
    Option Color :=
  let fromKeys := changes.map (fun c => colorToKey c.fromColor)
  let key := colorToKey pixelColor
  let idx := fromKeys.indexOf key
  (changes[idx]?).map (fun c => c.toColor)

/-- Tolerance mode scan: the running `(bestIdx, bestDist)` pair, `none` while
`bestIdx = -1`/`bestDist = Infinity`; a strictly smaller distance updates the
pair, so the earliest index attaining the minimum wins. -/
def scanBest (pixelColor : Color) : List PaletteChange → Nat →
    Option (Nat × Int) → Option (Nat × Int)
  | [], _, best => best
  | c :: rest, j, best =>
      let dist := colorDistanceSq pixelColor c.fromColor
      let best' := match best with
        | none => some (j, dist)
        | some (bi, bd) => if dist < bd then some (j, dist) else some (bi, bd)
      scanBest pixelColor rest (j + 1) best'

/-- The per-pixel body of the recoloring loop. -/
def transformPixel (changes : List PaletteChange) (useTolerance : Bool)
    (toleranceSq : Int) (p : Color) : Color :=
  if p.a = 0 then p
  else
    let replacement : Option Color :=
      if useTolerance then
        match scanBest p changes 0 none with
        | some (bi, bd) =>
            if bd ≤ toleranceSq then (changes[bi]?).map (fun c => c.toColor) else none
        | none => none
      else exactReplacement changes p
    match replacement with
    | some c => clampColor c
    | none => p

def applyColorMappingsToImageData (baseImageData : ImageData)
    (changes : List PaletteChange) (useTolerance : Bool) (toleranceSq : Int) :
    ImageData :=
  { width := baseImageData.width
    height := baseImageData.height
    data := baseImageData.data.map (transformPixel changes useTolerance toleranceSq) }

/-! ### Auxiliary definitions used by the statements -/

/-- The GID range `[firstGid, firstGid + tileCount)` owned by a tileset. -/
def coversGid (ts : RawTilesetRef) (g : Nat) : Prop :=
  ts.firstgid ≤ g ∧ g < ts.firstgid + ts.tilecount.getD 0

instance (ts : RawTilesetRef) (g : Nat) : Decidable (coversGid ts g) :=
  inferInstanceAs (Decidable (_ ∧ _))

/-- Append an element unless it has been seen already. -/
def insertNewKey {α : Type} [DecidableEq α] (acc : List α) (k : α) : List α :=
  if k ∈ acc then acc else acc ++ [k]

/-- Keep the first occurrence of every element, in order of first
appearance. -/
def firstSeen {α : Type} [DecidableEq α] (l : List α) : List α :=
  l.foldl insertNewKey []

/-- All source-cell coordinates `(localY, localX)` of a `w × h` tile layer in
the loop order of `mergeTileLayers`. -/
def cellList (w h : Nat) : List (Nat × Nat) :=
  (List.range h).flatMap (fun ly => (List.range w).map (fun lx => (ly, lx)))

/-- The effect of `writeCell` on one source cell, as a write descriptor:
`none` when the cell is skipped (empty GID or destination out of bounds),
otherwise the destination index and the remapped value it writes. -/
def cellWrite (src : RawTileLayer) (offsetX offsetY : Int) (bw bh : Nat)
    (remap : GidRemap) (localY localX : Nat) : Option (Nat × Nat) :=
  let srcIndex := localY * src.width + localX
  let oldGid := src.data.getD srcIndex 0
  if oldGid = 0 then none
  else
    let newGid := (remap oldGid).getD oldGid
    let globalX : Int := offsetX + localX
    let globalY : Int := offsetY + localY
    if globalX < 0 ∨ globalY < 0 ∨ (bw : Int) ≤ globalX ∨ (bh : Int) ≤ globalY
    then none
    else some ((globalY * bw + globalX).toNat, newGid)

/-- Apply a sequence of optional writes to a destination array in order. -/
def applyWrites (init : List Nat) (ws : List (Option (Nat × Nat))) : List Nat :=
  ws.foldl
    (fun acc w => match w with | none => acc | some (i, v) => acc.set i v) init

/-- The `id` carried by a layer of any variant. -/
def layerId : RawLayer → Nat
  | .tilelayer t => t.id
  | .objectgroup g => g.id
  | .imagelayer _ _ => 0
  | .group _ => 0

/-- The layer ids of a merged document (empty on a failed merge). -/
def mergedLayerIds (chunks : List MapChunk) : List Nat :=
  match mergeTmjMaps chunks with
  | .ok d => d.layers.map layerId
  | .error _ => []

/-! ### Concrete inputs for witnesses and counterexamples -/

def demoTileset : RawTilesetRef :=
  { firstgid := 1, source := none, name := some "terrain", image := some "terrain.png"
    tilewidth := some 16, tileheight := some 16, tilecount := some 4, columns := some 2 }

def demoTileLayer (layerData : List Nat) : RawTileLayer :=
  { id := 5, name := "ground", x := 0, y := 0, width := 4, height := 4
    data := layerData, visible := true, opacity := 1, properties := [] }

def demoObject : RawObject :=
  { id := 9, name := "spawn", otype := "", x := 3, y := 4, width := none
    height := none, gid := some 2, properties := [] }

def demoObjectGroup : RawObjectGroup :=
  { id := 7, name := "objects", objects := [demoObject], visible := true
    opacity := 1, properties := [] }

def demoChunk (ox oy : Int) (layerData : List Nat) : MapChunk :=
  { id := "chunk", offsetX := ox, offsetY := oy
    tmj := { height := 4, width := 4, tileheight := 16, tilewidth := 16
             layers := [RawLayer.tilelayer (demoTileLayer layerData),
                        RawLayer.objectgroup demoObjectGroup]
             tilesets := [demoTileset], orientation := "orthogonal"
             renderorder := "right-down", infinite := false, properties := [] } }

def demoDataA : List Nat := (List.range 16).map (fun i => if i = 0 then 1 else 0)

def demoDataB : List Nat := (List.range 16).map (fun i => if i = 5 then 2 else 0)

def demoChunkA : MapChunk := demoChunk 0 0 demoDataA

def demoChunkB : MapChunk := demoChunk 4 0 demoDataB

/-- `demoChunkA` with a mismatching tile size. -/
def demoChunkWide : MapChunk :=
  { demoChunkA with tmj := { demoChunkA.tmj with tilewidth := 32 } }

def demoRed : Color := ⟨255, 0, 0, 255⟩

def demoGreen : Color := ⟨0, 255, 0, 255⟩

def demoImage : ImageData :=
  { width := 2, height := 2, data := [demoRed, demoRed, demoRed, demoRed] }

def demoChanges : List PaletteChange :=
  [{ fromColor := demoRed, toColor := demoGreen }]

/-! ## Validation lemmas -/

theorem validateChunks_ok_iff (tw th : Nat) (l : List MapChunk) :
    validateChunks tw th l = .ok () ↔
      ∀ c ∈ l, (c.tmj.tilewidth = tw ∧ c.tmj.tileheight = th) ∧
        c.tmj.infinite = false := by
  induction l with
  | nil => simp [validateChunks]
  | cons c rest ih =>
    simp only [validateChunks]
    by_cases hdim : c.tmj.tilewidth ≠ tw ∨ c.tmj.tileheight ≠ th
    · rw [if_pos hdim]
      constructor
      · intro h; cases h
      · intro h
        rcases hdim with h1 | h1
        · exact absurd ((h c (by simp)).1.1) h1
        · exact absurd ((h c (by simp)).1.2) h1
    · rw [if_neg hdim]
      push_neg at hdim
      by_cases hinf : c.tmj.infinite
      · simp only [if_pos hinf]
        constructor
        · intro h; cases h
        · intro h
          have := (h c (by simp)).2
          rw [hinf] at this; cases this
      · simp only [Bool.not_eq_true] at hinf
        simp only [hinf, if_false, Bool.false_eq_true, ih]
        constructor
        · intro h c' hc'
          rcases List.mem_cons.mp hc' with rfl | hc'
          · exact ⟨⟨hdim.1, hdim.2⟩, hinf⟩
          · exact h c' hc'
        · intro h c' hc'
          exact h c' (List.mem_cons_of_mem _ hc')

theorem validateChunks_dim (tw th : Nat) (l : List MapChunk)
    (hex : ∃ c ∈ l, c.tmj.tilewidth ≠ tw ∨ c.tmj.tileheight ≠ th)
    (hinf : ∀ c ∈ l, c.tmj.infinite = false) :
    validateChunks tw th l = .error .dimensionMismatch := by
  induction l with
  | nil => simp at hex
  | cons c rest ih =>
    simp only [validateChunks]
    by_cases hdim : c.tmj.tilewidth ≠ tw ∨ c.tmj.tileheight ≠ th
    · rw [if_pos hdim]
    · rw [if_neg hdim]
      simp only [hinf c (by simp), Bool.false_eq_true, if_false]
      apply ih
      · rcases hex with ⟨d, hd, hm⟩
        rcases List.mem_cons.mp hd with rfl | hd
        · exact absurd hm hdim
        · exact ⟨d, hd, hm⟩
      · exact fun c' hc' => hinf c' (List.mem_cons_of_mem _ hc')

theorem validateChunks_inf (tw th : Nat) (l : List MapChunk)
    (hex : ∃ c ∈ l, c.tmj.infinite = true)
    (hdim : ∀ c ∈ l, c.tmj.tilewidth = tw ∧ c.tmj.tileheight = th) :
    validateChunks tw th l = .error .infiniteNotSupported := by
  induction l with
  | nil => simp at hex
  | cons c rest ih =>
    simp only [validateChunks]
    rw [if_neg (by push_neg; exact hdim c (by simp))]
    by_cases hinf : c.tmj.infinite
    · simp only [if_pos hinf]
    · simp only [Bool.not_eq_true] at hinf
      simp only [hinf, Bool.false_eq_true, if_false]
      apply ih
      · rcases hex with ⟨d, hd, hm⟩
        rcases List.mem_cons.mp hd with rfl | hd
        · rw [hinf] at hm; cases hm
        · exact ⟨d, hd, hm⟩
      · exact fun c' hc' => hdim c' (List.mem_cons_of_mem _ hc')

/-! ## C1: merge validation failures -/

/-- **C1.** `mergeTmjMaps` fails with the distinct `noMapsToMerge` error on an
empty chunk list; with the distinct `dimensionMismatch` error when some
chunk's `tilewidth`/`tileheight` differs from the first chunk's; with the
distinct `infiniteNotSupported` error when some chunk declares `infinite`;
any such validation failure aborts the whole merge — the result is an
`Except.error` carrying one of the named errors and no merged document —
and absent violations the merge returns a document. -/
theorem mergeTmjMaps_validation (chunks : List MapChunk) :
    (chunks = [] → mergeTmjMaps chunks = .error .noMapsToMerge) ∧
    (∀ c0 rest, chunks = c0 :: rest →
      ((∃ c ∈ chunks, c.tmj.tilewidth ≠ c0.tmj.tilewidth ∨
          c.tmj.tileheight ≠ c0.tmj.tileheight) →
        (∀ c ∈ chunks, c.tmj.infinite = false) →
        mergeTmjMaps chunks = .error .dimensionMismatch) ∧
      ((∃ c ∈ chunks, c.tmj.infinite = true) →
        (∀ c ∈ chunks, c.tmj.tilewidth = c0.tmj.tilewidth ∧
          c.tmj.tileheight = c0.tmj.tileheight) →
        mergeTmjMaps chunks = .error .infiniteNotSupported) ∧
      (((∃ c ∈ chunks, c.tmj.tilewidth ≠ c0.tmj.tilewidth ∨
          c.tmj.tileheight ≠ c0.tmj.tileheight) ∨
        (∃ c ∈ chunks, c.tmj.infinite = true)) →
        ∃ e : MergeError, mergeTmjMaps chunks = .error e) ∧
      ((∀ c ∈ chunks, (c.tmj.tilewidth = c0.tmj.tilewidth ∧
          c.tmj.tileheight = c0.tmj.tileheight) ∧ c.tmj.infinite = false) →
        ∃ doc : RawTmj, mergeTmjMaps chunks = .ok doc)) := by
  constructor
  · rintro rfl; rfl
  · rintro c0 rest rfl
    refine ⟨?_, ?_, ?_, ?_⟩
    · intro hex hinf
      have hv := validateChunks_dim c0.tmj.tilewidth c0.tmj.tileheight (c0 :: rest) hex hinf
      simp only [mergeTmjMaps, hv]
    · intro hex hdim
      have hv := validateChunks_inf c0.tmj.tilewidth c0.tmj.tileheight (c0 :: rest) hex hdim
      simp only [mergeTmjMaps, hv]
    · intro hviol
      cases hval : validateChunks c0.tmj.tilewidth c0.tmj.tileheight (c0 :: rest) with
      | error e => exact ⟨e, by simp only [mergeTmjMaps, hval]⟩
      | ok u =>
        exfalso
        have hall := (validateChunks_ok_iff _ _ _).mp (by cases u; exact hval)
        rcases hviol with ⟨c, hc, hm⟩ | ⟨c, hc, hm⟩
        · rcases hm with hm | hm
          · exact hm (hall c hc).1.1
          · exact hm (hall c hc).1.2
        · rw [(hall c hc).2] at hm; cases hm
    · intro hall
      have hv := (validateChunks_ok_iff c0.tmj.tilewidth c0.tmj.tileheight (c0 :: rest)).mpr hall
      cases hm : mergeTmjMaps (c0 :: rest) with
      | ok d => exact ⟨d, rfl⟩
      | error e =>
        simp only [mergeTmjMaps, hv] at hm
        exact Except.noConfusion hm

/-- Witness for C1 at concrete inputs: the empty list and a two-chunk list
with mismatched tile sizes. -/
theorem mergeTmjMaps_validation_witness :
    mergeTmjMaps [] = .error .noMapsToMerge ∧
    mergeTmjMaps [demoChunkA, demoChunkWide] = .error .dimensionMismatch := by
  constructor
  · exact (mergeTmjMaps_validation []).1 rfl
  · exact ((mergeTmjMaps_validation [demoChunkA, demoChunkWide]).2 demoChunkA
      [demoChunkWide] rfl).1 ⟨demoChunkWide, by simp, by decide⟩ (by decide)

/-! ## Fold lemmas for computeBounds -/

theorem foldl_min_le {β : Type} (f : β → Int) (l : List β) (a : Int) :
    l.foldl (fun m x => min m (f x)) a ≤ a ∧
      ∀ x ∈ l, l.foldl (fun m x => min m (f x)) a ≤ f x := by
  induction l generalizing a with
  | nil => simp
  | cons y rest ih =>
    simp only [List.foldl_cons]
    obtain ⟨h1, h2⟩ := ih (min a (f y))
    refine ⟨le_trans h1 (min_le_left _ _), ?_⟩
    intro x hx
    rcases List.mem_cons.mp hx with rfl | hx
    · exact le_trans h1 (min_le_right _ _)
    · exact h2 x hx

theorem foldl_min_mem {β : Type} (f : β → Int) (l : List β) (a : Int) :
    l.foldl (fun m x => min m (f x)) a = a ∨
      ∃ x ∈ l, l.foldl (fun m x => min m (f x)) a = f x := by
  induction l generalizing a with
  | nil => simp
  | cons y rest ih =>
    simp only [List.foldl_cons]
    rcases ih (min a (f y)) with h | ⟨x, hx, h⟩
    · rcases min_choice a (f y) with hm | hm
      · exact Or.inl (h.trans hm)
      · exact Or.inr ⟨y, by simp, h.trans hm⟩
    · exact Or.inr ⟨x, List.mem_cons_of_mem _ hx, h⟩

theorem foldl_max_ge {β : Type} (f : β → Int) (l : List β) (a : Int) :
    a ≤ l.foldl (fun m x => max m (f x)) a ∧
      ∀ x ∈ l, f x ≤ l.foldl (fun m x => max m (f x)) a := by
  induction l generalizing a with
  | nil => simp
  | cons y rest ih =>
    simp only [List.foldl_cons]
    obtain ⟨h1, h2⟩ := ih (max a (f y))
    refine ⟨le_trans (le_max_left _ _) h1, ?_⟩
    intro x hx
    rcases List.mem_cons.mp hx with rfl | hx
    · exact le_trans (le_max_right _ _) h1
    · exact h2 x hx

theorem foldl_max_mem {β : Type} (f : β → Int) (l : List β) (a : Int) :
    l.foldl (fun m x => max m (f x)) a = a ∨
      ∃ x ∈ l, l.foldl (fun m x => max m (f x)) a = f x := by
  induction l generalizing a with
  | nil => simp
  | cons y rest ih =>
    simp only [List.foldl_cons]
    rcases ih (max a (f y)) with h | ⟨x, hx, h⟩
    · rcases max_choice a (f y) with hm | hm
      · exact Or.inl (h.trans hm)
      · exact Or.inr ⟨y, by simp, h.trans hm⟩
    · exact Or.inr ⟨x, List.mem_cons_of_mem _ hx, h⟩

/-- On finite inputs the `computeBounds` fold is an integer min/max fold. -/
theorem foldl_boundsStep_int (l : List MapChunk) (a b c d : Int) :
    l.foldl boundsStep (.int a, .int b, .int c, .int d) =
      (.int (l.foldl (fun m ch => min m ch.offsetX) a),
       .int (l.foldl (fun m ch => min m ch.offsetY) b),
       .int (l.foldl (fun m ch => max m (ch.offsetX + (ch.tmj.width : Int))) c),
       .int (l.foldl (fun m ch => max m (ch.offsetY + (ch.tmj.height : Int))) d)) := by
  induction l generalizing a b c d with
  | nil => rfl
  | cons ch rest ih =>
    simp only [List.foldl_cons]
    have hstep : boundsStep (.int a, .int b, .int c, .int d) ch =
        (.int (min a ch.offsetX), .int (min b ch.offsetY),
         .int (max c (ch.offsetX + (ch.tmj.width : Int))),
         .int (max d (ch.offsetY + (ch.tmj.height : Int)))) := rfl
    rw [hstep, ih]

/-! ## C7: computeBounds on non-empty input -/

/-- **C7.** On a non-empty chunk list `computeBounds` returns finite bounds
whose `minX`/`minY` are the componentwise minima of the chunk `offsetX`/
`offsetY`, whose `maxX`/`maxY` are the maxima of `offsetX + width` /
`offsetY + height`, with `width = maxX - minX` and `height = maxY - minY`;
the bounds rectangle contains every chunk's rectangle, and `width` is at
least every chunk's width. -/
theorem computeBounds_componentwise (c0 : MapChunk) (rest : List MapChunk) :
    computeBounds (c0 :: rest) =
      { minX := .int (rest.foldl (fun m ch => min m ch.offsetX) c0.offsetX)
        minY := .int (rest.foldl (fun m ch => min m ch.offsetY) c0.offsetY)
        maxX := .int (rest.foldl (fun m ch => max m (ch.offsetX + (ch.tmj.width : Int)))
          (c0.offsetX + (c0.tmj.width : Int)))
        maxY := .int (rest.foldl (fun m ch => max m (ch.offsetY + (ch.tmj.height : Int)))
          (c0.offsetY + (c0.tmj.height : Int)))
        width := .int (rest.foldl (fun m ch => max m (ch.offsetX + (ch.tmj.width : Int)))
            (c0.offsetX + (c0.tmj.width : Int)) -
          rest.foldl (fun m ch => min m ch.offsetX) c0.offsetX)
        height := .int (rest.foldl (fun m ch => max m (ch.offsetY + (ch.tmj.height : Int)))
            (c0.offsetY + (c0.tmj.height : Int)) -
          rest.foldl (fun m ch => min m ch.offsetY) c0.offsetY) } ∧
    (∀ c ∈ c0 :: rest,
      rest.foldl (fun m ch => min m ch.offsetX) c0.offsetX ≤ c.offsetX ∧
      rest.foldl (fun m ch => min m ch.offsetY) c0.offsetY ≤ c.offsetY ∧
      c.offsetX + (c.tmj.width : Int) ≤
        rest.foldl (fun m ch => max m (ch.offsetX + (ch.tmj.width : Int)))
          (c0.offsetX + (c0.tmj.width : Int)) ∧
      c.offsetY + (c.tmj.height : Int) ≤
        rest.foldl (fun m ch => max m (ch.offsetY + (ch.tmj.height : Int)))
          (c0.offsetY + (c0.tmj.height : Int))) ∧
    ((∃ c ∈ c0 :: rest,
        rest.foldl (fun m ch => min m ch.offsetX) c0.offsetX = c.offsetX) ∧
      (∃ c ∈ c0 :: rest,
        rest.foldl (fun m ch => min m ch.offsetY) c0.offsetY = c.offsetY) ∧
      (∃ c ∈ c0 :: rest,
        rest.foldl (fun m ch => max m (ch.offsetX + (ch.tmj.width : Int)))
          (c0.offsetX + (c0.tmj.width : Int)) = c.offsetX + (c.tmj.width : Int)) ∧
      (∃ c ∈ c0 :: rest,
        rest.foldl (fun m ch => max m (ch.offsetY + (ch.tmj.height : Int)))
          (c0.offsetY + (c0.tmj.height : Int)) = c.offsetY + (c.tmj.height : Int))) ∧
    (∀ c ∈ c0 :: rest, (c.tmj.width : Int) ≤
      rest.foldl (fun m ch => max m (ch.offsetX + (ch.tmj.width : Int)))
          (c0.offsetX + (c0.tmj.width : Int)) -
        rest.foldl (fun m ch => min m ch.offsetX) c0.offsetX) := by
  have hfold : (c0 :: rest).foldl boundsStep
      (ENum.posInf, ENum.posInf, ENum.negInf, ENum.negInf) =
      (.int (rest.foldl (fun m ch => min m ch.offsetX) c0.offsetX),
       .int (rest.foldl (fun m ch => min m ch.offsetY) c0.offsetY),
       .int (rest.foldl (fun m ch => max m (ch.offsetX + (ch.tmj.width : Int)))
         (c0.offsetX + (c0.tmj.width : Int))),
       .int (rest.foldl (fun m ch => max m (ch.offsetY + (ch.tmj.height : Int)))
         (c0.offsetY + (c0.tmj.height : Int)))) := by
    rw [List.foldl_cons]
    have hinit : boundsStep (ENum.posInf, ENum.posInf, ENum.negInf, ENum.negInf) c0 =
        (.int c0.offsetX, .int c0.offsetY, .int (c0.offsetX + (c0.tmj.width : Int)),
         .int (c0.offsetY + (c0.tmj.height : Int))) := rfl
    rw [hinit, foldl_boundsStep_int]
  refine ⟨?_, ?_, ?_, ?_⟩
  · simp only [computeBounds, hfold]
    rfl
  · intro c hc
    rcases List.mem_cons.mp hc with rfl | hc
    · exact ⟨(foldl_min_le _ rest _).1, (foldl_min_le _ rest _).1,
        (foldl_max_ge _ rest _).1, (foldl_max_ge _ rest _).1⟩
    · exact ⟨(foldl_min_le _ rest _).2 c hc, (foldl_min_le _ rest _).2 c hc,
        (foldl_max_ge _ rest _).2 c hc, (foldl_max_ge _ rest _).2 c hc⟩
  · refine ⟨?_, ?_, ?_, ?_⟩
    · rcases foldl_min_mem (fun ch => ch.offsetX) rest c0.offsetX with h | ⟨x, hx, h⟩
      · exact ⟨c0, by simp, h⟩
      · exact ⟨x, List.mem_cons_of_mem _ hx, h⟩
    · rcases foldl_min_mem (fun ch => ch.offsetY) rest c0.offsetY with h | ⟨x, hx, h⟩
      · exact ⟨c0, by simp, h⟩
      · exact ⟨x, List.mem_cons_of_mem _ hx, h⟩
    · rcases foldl_max_mem (fun ch => ch.offsetX + (ch.tmj.width : Int)) rest
        (c0.offsetX + (c0.tmj.width : Int)) with h | ⟨x, hx, h⟩
      · exact ⟨c0, by simp, h⟩
      · exact ⟨x, List.mem_cons_of_mem _ hx, h⟩
    · rcases foldl_max_mem (fun ch => ch.offsetY + (ch.tmj.height : Int)) rest
        (c0.offsetY + (c0.tmj.height : Int)) with h | ⟨x, hx, h⟩
      · exact ⟨c0, by simp, h⟩
      · exact ⟨x, List.mem_cons_of_mem _ hx, h⟩
  · intro c hc
    have hmin : rest.foldl (fun m ch => min m ch.offsetX) c0.offsetX ≤ c.offsetX := by
      rcases List.mem_cons.mp hc with rfl | hc
      · exact (foldl_min_le _ rest _).1
      · exact (foldl_min_le _ rest _).2 c hc
    have hmax : c.offsetX + (c.tmj.width : Int) ≤
        rest.foldl (fun m ch => max m (ch.offsetX + (ch.tmj.width : Int)))
          (c0.offsetX + (c0.tmj.width : Int)) := by
      rcases List.mem_cons.mp hc with rfl | hc
      · exact (foldl_max_ge _ rest _).1
      · exact (foldl_max_ge _ rest _).2 c hc
    omega

/-! ## C10: empty input to computeBounds -/

/-- **C10.** `computeBounds []` raises no error: it returns the sentinel
bounds `minX = minY = +Infinity`, `maxX = maxY = -Infinity`, with `width`
and `height` equal to `-Infinity` (`maxX - minX` over zero chunks), and the
caller `mergeTmjMaps` guards the empty case itself, failing before ever
calling `computeBounds`. -/
theorem computeBounds_empty_sentinel :
    computeBounds [] =
      { minX := .posInf, minY := .posInf, maxX := .negInf, maxY := .negInf
        width := .negInf, height := .negInf } ∧
    mergeTmjMaps [] = .error .noMapsToMerge :=
  ⟨rfl, rfl⟩

/-! ## Sequential-id lemmas -/

theorem range'_concat_one (s n : Nat) :
    List.range' s (n + 1) = List.range' s n ++ [s + n] := by
  have h : List.range' s (n + 1) = List.range' s n ++ [s + 1 * n] :=
    List.range'_concat s n
  simpa using h

theorem range'_append_one (s m n : Nat) :
    List.range' s m ++ List.range' (s + m) n = List.range' s (m + n) := by
  simp [Nat.add_comm]

theorem foldl_preserves {σ α : Type} (P : σ → Prop) (f : σ → α → σ)
    (hf : ∀ s a, P s → P (f s a)) (l : List α) (s : σ) (h : P s) :
    P (l.foldl f s) := by
  induction l generalizing s with
  | nil => exact h
  | cons a rest ih => exact ih (f s a) (hf s a h)

/-- Invariant of the `mergeTileLayers` fold: ids so far are `1, 2, …` in
emission order and the counter is one past them. -/
def TLInv (st : List RawTileLayer × Nat) : Prop :=
  st.1.map (fun l => l.id) = List.range' 1 st.1.length ∧ st.2 = st.1.length + 1

theorem tileLayerStep_inv (offsetX offsetY : Int) (bw bh : Nat) (remap : GidRemap)
    (st : List RawTileLayer × Nat) (layer : RawLayer) (h : TLInv st) :
    TLInv (tileLayerStep offsetX offsetY bw bh remap st layer) := by
  obtain ⟨h1, h2⟩ := h
  cases layer with
  | tilelayer src =>
      refine ⟨?_, ?_⟩
      · simp only [tileLayerStep, List.map_append, List.length_append,
          List.map_cons, List.map_nil, List.length_cons, List.length_nil, h1, h2]

        rw [range'_concat_one 1 st.1.length, Nat.add_comm 1 st.1.length]
      · simp [tileLayerStep, h2]
  | objectgroup g => exact ⟨h1, h2⟩
  | imagelayer n i => exact ⟨h1, h2⟩
  | group n => exact ⟨h1, h2⟩

theorem tileChunkStep_inv (chunks : List MapChunk) (bounds : IBounds)
    (gidRemaps : List GidRemap) (st : List RawTileLayer × Nat) (idx : Nat)
    (h : TLInv st) : TLInv (tileChunkStep chunks bounds gidRemaps st idx) :=
  foldl_preserves TLInv _
    (fun s a hs => tileLayerStep_inv _ _ _ _ _ s a hs) _ st h

/-- Invariant of the `mergeObjectGroups` fold: group ids and object ids are
each `1, 2, …` in emission order, with both counters one past them. -/
def OGInv (st : List RawObjectGroup × Nat × Nat) : Prop :=
  st.1.map (fun gg => gg.id) = List.range' 1 st.1.length ∧
  st.2.1 = st.1.length + 1 ∧
  (st.1.flatMap (fun gg => gg.objects)).map (fun o => o.id) =
    List.range' 1 (st.1.flatMap (fun gg => gg.objects)).length ∧
  st.2.2 = (st.1.flatMap (fun gg => gg.objects)).length + 1

theorem objStep_foldl (px py : Int) (remap : GidRemap) (objs : List RawObject)
    (acc : List RawObject × Nat) :
    (objs.foldl (objStep px py remap) acc).1.map (fun o => o.id) =
      acc.1.map (fun o => o.id) ++ List.range' acc.2 objs.length ∧
    (objs.foldl (objStep px py remap) acc).1.length =
      acc.1.length + objs.length ∧
    (objs.foldl (objStep px py remap) acc).2 = acc.2 + objs.length := by
  induction objs generalizing acc with
  | nil => simp
  | cons o rest ih =>
    simp only [List.foldl_cons, List.length_cons]
    obtain ⟨h1, h2, h3⟩ := ih (objStep px py remap acc o)
    refine ⟨?_, ?_, ?_⟩
    · rw [h1]
      simp only [objStep, List.map_append, List.map_cons, List.map_nil,
        List.range'_succ, List.append_assoc]
      rfl
    · rw [h2]
      simp only [objStep, List.length_append, List.length_cons, List.length_nil]
      omega
    · rw [h3]
      simp only [objStep]
      omega

theorem objGroupStep_inv (px py : Int) (remap : GidRemap)
    (st : List RawObjectGroup × Nat × Nat) (layer : RawLayer) (h : OGInv st) :
    OGInv (objGroupStep px py remap st layer) := by
  obtain ⟨h1, h2, h3, h4⟩ := h
  cases layer with
  | objectgroup src =>
    obtain ⟨hr1, hr2, hr3⟩ := objStep_foldl px py remap src.objects ([], st.2.2)
    simp only [List.map_nil, List.nil_append, List.length_nil, Nat.zero_add] at hr1 hr2 hr3
    refine ⟨?_, ?_, ?_, ?_⟩
    · simp only [objGroupStep, List.map_append, List.length_append,
        List.map_cons, List.map_nil, List.length_cons, List.length_nil, h1, h2]
      rw [range'_concat_one 1 st.1.length, Nat.add_comm 1 st.1.length]
    · simp only [objGroupStep, List.length_append, List.length_cons,
        List.length_nil, h2]
    · simp only [objGroupStep, List.flatMap_append, List.flatMap_cons,
        List.flatMap_nil, List.append_nil, List.map_append, List.length_append,
        h3, hr1, hr2]
      rw [h4, Nat.add_comm _ 1]
      exact range'_append_one 1 _ src.objects.length
    · simp only [objGroupStep, List.flatMap_append, List.flatMap_cons,
        List.flatMap_nil, List.append_nil, List.length_append, hr2]
      rw [hr3, h4]
      omega
  | tilelayer t => exact ⟨h1, h2, h3, h4⟩
  | imagelayer n i => exact ⟨h1, h2, h3, h4⟩
  | group n => exact ⟨h1, h2, h3, h4⟩

theorem objChunkStep_inv (chunks : List MapChunk) (bounds : IBounds)
    (gidRemaps : List GidRemap) (tw th : Nat)
    (st : List RawObjectGroup × Nat × Nat) (idx : Nat) (h : OGInv st) :
    OGInv (objChunkStep chunks bounds gidRemaps tw th st idx) :=
  foldl_preserves OGInv _
    (fun s a hs => objGroupStep_inv _ _ _ s a hs) _ st h

/-! ## C6: layer and object id renumbering -/

/-- **C6 counterexample.** Merging a single chunk holding one tile layer and
one object group yields layer ids `[1, 1]`: the object group restarts at 1
instead of continuing the global sequence `[1, 2]`, so ids are *not*
renumbered globally across all merged layers of the merged document. -/
theorem merged_layer_ids_not_globally_sequential :
    mergedLayerIds [demoChunkA] = [1, 1] ∧
    mergedLayerIds [demoChunkA] ≠
      List.range' 1 (mergedLayerIds [demoChunkA]).length := by
  have h : mergedLayerIds [demoChunkA] = [1, 1] := by decide
  refine ⟨h, ?_⟩
  rw [h]
  decide

/-- **C6 (amended).** Merged tile layers receive fresh sequential ids
`1, 2, …` in emission order *within the tile-layer pass*; merged object
groups likewise receive ids `1, 2, …` *within the object-group pass* (the two
passes each restart at 1, so ids repeat between them in the merged
document); and every copied object receives a fresh sequential object id
`1, 2, …` across all merged groups in emission order. -/
theorem merge_ids_sequential (chunks : List MapChunk) (bounds : IBounds)
    (gidRemaps : List GidRemap) (tw th : Nat) :
    (mergeTileLayers chunks bounds gidRemaps).map (fun l => l.id) =
      List.range' 1 (mergeTileLayers chunks bounds gidRemaps).length ∧
    (mergeObjectGroups chunks bounds gidRemaps tw th).map (fun gg => gg.id) =
      List.range' 1 (mergeObjectGroups chunks bounds gidRemaps tw th).length ∧
    ((mergeObjectGroups chunks bounds gidRemaps tw th).flatMap
        (fun gg => gg.objects)).map (fun o => o.id) =
      List.range' 1 ((mergeObjectGroups chunks bounds gidRemaps tw th).flatMap
        (fun gg => gg.objects)).length := by
  have hT := foldl_preserves TLInv (tileChunkStep chunks bounds gidRemaps)
    (fun s a hs => tileChunkStep_inv chunks bounds gidRemaps s a hs)
    (List.range chunks.length) ([], 1) ⟨rfl, rfl⟩
  have hO := foldl_preserves OGInv (objChunkStep chunks bounds gidRemaps tw th)
    (fun s a hs => objChunkStep_inv chunks bounds gidRemaps tw th s a hs)
    (List.range chunks.length) ([], 1, 1) ⟨rfl, rfl, rfl, rfl⟩
  exact ⟨hT.1, hO.1, hO.2.2.1⟩

/-! ## Registry lemmas for mergeTilesets -/

theorem keyOf_set_firstgid (ts : RawTilesetRef) (n : Nat) :
    keyOf { ts with firstgid := n } = keyOf ts := rfl

theorem processTileset_fst (reg : Registry) (r : GidRemap) (ts : RawTilesetRef) :
    (processTileset reg r ts).1 = regStep reg ts := by
  cases hf : reg.globalTilesets.find? (fun g => keyOf g == keyOf ts) <;>
    simp [processTileset, regStep, hf]

theorem processChunkTilesets_foldl_fst (tss : List RawTilesetRef)
    (acc : Registry × GidRemap) :
    (tss.foldl processTilesetStep acc).1 = tss.foldl regStep acc.1 := by
  induction tss generalizing acc with
  | nil => rfl
  | cons t rest ih =>
    simp only [List.foldl_cons]
    rw [ih (processTilesetStep acc t),
      show (processTilesetStep acc t).1 = regStep acc.1 t from
        processTileset_fst acc.1 acc.2 t]

theorem mergeTilesets_foldl_fst (chunks : List MapChunk)
    (acc : Registry × List GidRemap) :
    (chunks.foldl mergeTilesetsChunkStep acc).1 =
      (chunks.flatMap (fun c => c.tmj.tilesets)).foldl regStep acc.1 := by
  induction chunks generalizing acc with
  | nil => rfl
  | cons c rest ih =>
    simp only [List.foldl_cons, List.flatMap_cons, List.foldl_append]
    rw [ih (mergeTilesetsChunkStep acc c),
      show (mergeTilesetsChunkStep acc c).1 = c.tmj.tilesets.foldl regStep acc.1 from
        processChunkTilesets_foldl_fst c.tmj.tilesets (acc.1, emptyRemap)]

theorem mergeTilesets_fst (chunks : List MapChunk) :
    (mergeTilesets chunks).1 =
      ((chunks.flatMap (fun c => c.tmj.tilesets)).foldl regStep
        { globalTilesets := [], nextFirstGid := 1 }).globalTilesets := by
  have h := mergeTilesets_foldl_fst chunks
    ({ globalTilesets := [], nextFirstGid := 1 }, [])
  exact congrArg Registry.globalTilesets h

theorem regStep_prefix (reg : Registry) (ts : RawTilesetRef) :
    ∃ t, (regStep reg ts).globalTilesets = reg.globalTilesets ++ t := by
  cases hf : reg.globalTilesets.find? (fun g => keyOf g == keyOf ts) with
  | some e => exact ⟨[], by simp [regStep, hf]⟩
  | none => exact ⟨[{ ts with firstgid := reg.nextFirstGid }], by simp [regStep, hf]⟩

theorem foldl_regStep_prefix (l : List RawTilesetRef) (reg : Registry) :
    ∃ t, (l.foldl regStep reg).globalTilesets = reg.globalTilesets ++ t := by
  induction l generalizing reg with
  | nil => exact ⟨[], by simp⟩
  | cons ts rest ih =>
    obtain ⟨t1, h1⟩ := regStep_prefix reg ts
    obtain ⟨t2, h2⟩ := ih (regStep reg ts)
    exact ⟨t1 ++ t2, by rw [List.foldl_cons, h2, h1, List.append_assoc]⟩

theorem find?_append_some {α : Type} (p : α → Bool) (l1 l2 : List α) (a : α)
    (h : l1.find? p = some a) : (l1 ++ l2).find? p = some a := by
  rw [List.find?_append, h]
  rfl

theorem foldl_regStep_find?_stable (l : List RawTilesetRef) (reg : Registry)
    (k : TilesetKey) (e : RawTilesetRef)
    (h : reg.globalTilesets.find? (fun g => keyOf g == k) = some e) :
    (l.foldl regStep reg).globalTilesets.find? (fun g => keyOf g == k) = some e := by
  obtain ⟨t, ht⟩ := foldl_regStep_prefix l reg
  rw [ht]
  exact find?_append_some _ _ _ _ h

theorem regStep_key_present (reg : Registry) (ts : RawTilesetRef) :
    ∃ e, (regStep reg ts).globalTilesets.find?
      (fun g => keyOf g == keyOf ts) = some e := by
  cases hf : reg.globalTilesets.find? (fun g => keyOf g == keyOf ts) with
  | some e => exact ⟨e, by simp [regStep, hf]⟩
  | none =>
    refine ⟨{ ts with firstgid := reg.nextFirstGid }, ?_⟩
    have : (regStep reg ts).globalTilesets =
        reg.globalTilesets ++ [{ ts with firstgid := reg.nextFirstGid }] := by
      simp [regStep, hf]
    rw [this, List.find?_append, hf]
    simp [List.find?_cons, keyOf_set_firstgid]

theorem foldl_regStep_key_present (l : List RawTilesetRef) (reg : Registry)
    (ts : RawTilesetRef) (h : ts ∈ l) :
    ∃ e, ((l.foldl regStep reg).globalTilesets).find?
      (fun g => keyOf g == keyOf ts) = some e := by
  induction l generalizing reg with
  | nil => cases h
  | cons t rest ih =>
    rw [List.foldl_cons]
    rcases List.mem_cons.mp h with rfl | h
    · obtain ⟨e, he⟩ := regStep_key_present reg ts
      exact ⟨e, foldl_regStep_find?_stable rest _ _ e he⟩
    · exact ih (regStep reg t) h

theorem foldl_regStep_keys (l : List RawTilesetRef) (reg : Registry) :
    ((l.foldl regStep reg).globalTilesets).map keyOf =
      (l.map keyOf).foldl insertNewKey (reg.globalTilesets.map keyOf) := by
  induction l generalizing reg with
  | nil => rfl
  | cons ts rest ih =>
    simp only [List.foldl_cons, List.map_cons]
    rw [ih (regStep reg ts)]
    congr 1
    cases hf : reg.globalTilesets.find? (fun g => keyOf g == keyOf ts) with
    | some e =>
      have hkey : keyOf e = keyOf ts := by
        have he := List.find?_some hf
        simpa using he
      have hmem : keyOf ts ∈ reg.globalTilesets.map keyOf :=
        hkey ▸ List.mem_map_of_mem keyOf (List.mem_of_find?_eq_some hf)
      simp [regStep, hf, hmem, insertNewKey]
    | none =>
      have hmem : keyOf ts ∉ reg.globalTilesets.map keyOf := by
        intro hmem
        obtain ⟨g, hg, hkey⟩ := List.mem_map.mp hmem
        have := List.find?_eq_none.mp hf g hg
        simp [hkey] at this
      simp [regStep, hf, hmem, keyOf_set_firstgid, insertNewKey]

theorem firstSeen_foldl_nodup {α : Type} [DecidableEq α] (l : List α)
    (acc : List α) (h : acc.Nodup) :
    (l.foldl insertNewKey acc).Nodup := by
  induction l generalizing acc with
  | nil => exact h
  | cons k rest ih =>
    simp only [List.foldl_cons]
    by_cases hk : k ∈ acc
    · rw [show insertNewKey acc k = acc from if_pos hk]
      exact ih acc h
    · rw [show insertNewKey acc k = acc ++ [k] from if_neg hk]
      exact ih _ (by simp [List.nodup_append, h, hk])

theorem foldl_regStep_firstgid (l : List RawTilesetRef) (reg : Registry)
    (hn : reg.nextFirstGid =
      1 + (reg.globalTilesets.map (fun t => t.tilecount.getD 0)).sum)
    (hg : ∀ i ts, reg.globalTilesets[i]? = some ts →
      ts.firstgid =
        1 + ((reg.globalTilesets.take i).map (fun t => t.tilecount.getD 0)).sum) :
    (l.foldl regStep reg).nextFirstGid =
      1 + (((l.foldl regStep reg).globalTilesets).map
        (fun t => t.tilecount.getD 0)).sum ∧
    ∀ i ts, (l.foldl regStep reg).globalTilesets[i]? = some ts →
      ts.firstgid =
        1 + (((l.foldl regStep reg).globalTilesets.take i).map
          (fun t => t.tilecount.getD 0)).sum := by
  induction l generalizing reg with
  | nil => exact ⟨hn, hg⟩
  | cons u rest ih =>
    rw [List.foldl_cons]
    apply ih
    · cases hf : reg.globalTilesets.find? (fun g => keyOf g == keyOf u) with
      | some e => simpa [regStep, hf] using hn
      | none =>
        simp only [regStep, hf, List.map_append, List.sum_append, List.map_cons,
          List.sum_cons, List.map_nil, List.sum_nil]
        omega
    · cases hf : reg.globalTilesets.find? (fun g => keyOf g == keyOf u) with
      | some e => simpa [regStep, hf] using hg
      | none =>
        intro i ts hts
        simp only [regStep, hf] at hts ⊢
        rcases Nat.lt_trichotomy i reg.globalTilesets.length with hi | hi | hi
        · rw [List.getElem?_append_left hi] at hts
          rw [List.take_append_of_le_length (Nat.le_of_lt hi)]
          exact hg i ts hts
        · subst hi
          rw [List.getElem?_append_right (Nat.le_refl _), Nat.sub_self] at hts
          simp only [List.getElem?_cons_zero, Option.some_inj] at hts
          rw [List.take_left]
          rw [← hts]
          exact hn
        · rw [List.getElem?_append_right (by omega)] at hts
          have : i - reg.globalTilesets.length ≥ 1 := by omega
          rw [List.getElem?_eq_none (by simpa using this)] at hts
          cases hts

/-! ## C3: tileset deduplication, ordering and firstgid assignment -/

/-- **C3.** Tilesets with equal identity tuples collapse to a single global
tileset and differing tuples stay separate: the global tilesets' keys are
exactly the distinct keys of all chunks' tilesets in first-seen order (hence
duplicate-free), and the `i`-th global tileset's `firstgid` equals
`1 + Σ tilecount` of the previously registered tilesets — the counter starts
at 1 and advances by each newly registered tileset's tile count. -/
theorem mergeTilesets_dedup_order_firstgid (chunks : List MapChunk) :
    (mergeTilesets chunks).1.map keyOf =
      firstSeen ((chunks.flatMap (fun c => c.tmj.tilesets)).map keyOf) ∧
    ((mergeTilesets chunks).1.map keyOf).Nodup ∧
    ∀ i ts, (mergeTilesets chunks).1[i]? = some ts →
      ts.firstgid =
        1 + (((mergeTilesets chunks).1.take i).map
          (fun t => t.tilecount.getD 0)).sum := by
  have hfst := mergeTilesets_fst chunks
  refine ⟨?_, ?_, ?_⟩
  · rw [hfst, foldl_regStep_keys]
    rfl
  · rw [hfst, foldl_regStep_keys]
    exact firstSeen_foldl_nodup _ _ List.nodup_nil
  · intro i ts hts
    rw [hfst] at hts ⊢
    exact (foldl_regStep_firstgid _ _ rfl (by intro i ts h; cases h)).2 i ts hts

/-- Witness for C3 at a concrete input: merging the two demo chunks (which
share one identical tileset) yields exactly the one key in first-seen order,
and the first global tileset's `firstgid` evaluates to `1 + 0`. -/
theorem mergeTilesets_dedup_order_firstgid_witness :
    (mergeTilesets [demoChunkA, demoChunkB]).1.map keyOf =
      firstSeen ((([demoChunkA, demoChunkB]).flatMap
        (fun c => c.tmj.tilesets)).map keyOf) ∧
    demoTileset.firstgid =
      1 + (((mergeTilesets [demoChunkA, demoChunkB]).1.take 0).map
        (fun t => t.tilecount.getD 0)).sum := by
  refine ⟨(mergeTilesets_dedup_order_firstgid [demoChunkA, demoChunkB]).1, ?_⟩
  exact (mergeTilesets_dedup_order_firstgid [demoChunkA, demoChunkB]).2.2 0
    demoTileset (by decide)

/-! ## GidRemap lemmas -/

theorem processTilesetStep_fst (acc : Registry × GidRemap) (ts : RawTilesetRef) :
    (processTilesetStep acc ts).1 = regStep acc.1 ts :=
  processTileset_fst acc.1 acc.2 ts

theorem addRemapRange_lookup (r : GidRemap) (oF nF tc g : Nat) :
    addRemapRange r oF nF tc g =
      if oF ≤ g ∧ g < oF + tc then some (nF + (g - oF)) else r g := by
  induction tc with
  | zero =>
    have h : ¬(oF ≤ g ∧ g < oF) := by omega
    simp [addRemapRange, h]
  | succ n ih =>
    have hstep : addRemapRange r oF nF (n + 1) g =
        if g = oF + n then some (nF + n) else addRemapRange r oF nF n g := by
      simp only [addRemapRange, List.range_succ, List.foldl_append,
        List.foldl_cons, List.foldl_nil]
    rw [hstep]
    by_cases hg : g = oF + n
    · subst hg
      rw [if_pos rfl, if_pos (by omega)]
      congr 1
      omega
    · rw [if_neg hg, ih]
      by_cases hin : oF ≤ g ∧ g < oF + n
      · rw [if_pos hin, if_pos (by omega)]
      · rw [if_neg hin, if_neg (by omega)]

theorem processTileset_snd (reg : Registry) (r : GidRemap) (ts : RawTilesetRef)
    (g : Nat) :
    (processTileset reg r ts).2 g =
      if ts.firstgid ≤ g ∧ g < ts.firstgid + ts.tilecount.getD 0
      then some (firstgidOfKey (regStep reg ts) (keyOf ts) + (g - ts.firstgid))
      else r g := by
  cases hf : reg.globalTilesets.find? (fun g' => keyOf g' == keyOf ts) with
  | some e =>
    have h2 : (processTileset reg r ts).2 =
        addRemapRange r ts.firstgid e.firstgid (ts.tilecount.getD 0) := by
      simp [processTileset, hf]
    have h3 : firstgidOfKey (regStep reg ts) (keyOf ts) = e.firstgid := by
      simp [firstgidOfKey, regStep, hf]
    rw [h2, h3, addRemapRange_lookup]
  | none =>
    have h2 : (processTileset reg r ts).2 =
        addRemapRange r ts.firstgid reg.nextFirstGid (ts.tilecount.getD 0) := by
      simp [processTileset, hf]
    have hglob : (regStep reg ts).globalTilesets =
        reg.globalTilesets ++ [{ ts with firstgid := reg.nextFirstGid }] := by
      simp [regStep, hf]
    have h3 : firstgidOfKey (regStep reg ts) (keyOf ts) = reg.nextFirstGid := by
      simp only [firstgidOfKey, hglob, List.find?_append, hf]
      simp [List.find?_cons, keyOf_set_firstgid]
    rw [h2, h3, addRemapRange_lookup]

theorem foldl_processTilesetStep_no_write (tss : List RawTilesetRef)
    (acc : Registry × GidRemap) (g : Nat)
    (h : ∀ ts ∈ tss, ¬ coversGid ts g) :
    (tss.foldl processTilesetStep acc).2 g = acc.2 g := by
  induction tss generalizing acc with
  | nil => rfl
  | cons t rest ih =>
    rw [List.foldl_cons, ih _ (fun ts hts => h ts (List.mem_cons_of_mem _ hts))]
    rw [show (processTilesetStep acc t).2 g = (processTileset acc.1 acc.2 t).2 g
      from rfl, processTileset_snd,
      if_neg (show ¬(t.firstgid ≤ g ∧ g < t.firstgid + t.tilecount.getD 0) from
        fun hc => h t (by simp) hc)]

theorem processChunk_remap_covers (tss : List RawTilesetRef)
    (acc : Registry × GidRemap) (ts : RawTilesetRef) (g : Nat)
    (hts : ts ∈ tss) (hcov : coversGid ts g)
    (huniq : ∀ ts' ∈ tss, coversGid ts' g → ts' = ts) :
    (tss.foldl processTilesetStep acc).2 g =
      some (firstgidOfKey (tss.foldl regStep acc.1) (keyOf ts) +
        (g - ts.firstgid)) := by
  induction tss generalizing acc with
  | nil => cases hts
  | cons t rest ih =>
    rw [List.foldl_cons, List.foldl_cons]
    by_cases hmem : ts ∈ rest
    · have happ := ih (processTilesetStep acc t) hmem
        (fun ts' h' hc => huniq ts' (List.mem_cons_of_mem _ h') hc)
      rwa [processTilesetStep_fst] at happ
    · have hteq : t = ts := by
        rcases List.mem_cons.mp hts with h | h
        · exact h.symm
        · exact absurd h hmem
      subst hteq
      have hnw : ∀ ts' ∈ rest, ¬ coversGid ts' g := by
        intro ts' h' hc
        exact hmem ((huniq ts' (List.mem_cons_of_mem _ h') hc) ▸ h')
      rw [foldl_processTilesetStep_no_write rest _ g hnw]
      have h1 : (processTilesetStep acc t).2 g =
          some (firstgidOfKey (regStep acc.1 t) (keyOf t) + (g - t.firstgid)) := by
        rw [show (processTilesetStep acc t).2 g = (processTileset acc.1 acc.2 t).2 g
          from rfl, processTileset_snd,
          if_pos (show t.firstgid ≤ g ∧ g < t.firstgid + t.tilecount.getD 0 from hcov)]
      rw [h1]
      obtain ⟨e, he⟩ := regStep_key_present acc.1 t
      have hstable := foldl_regStep_find?_stable rest (regStep acc.1 t) (keyOf t) e he
      simp only [firstgidOfKey, he, hstable]

theorem mergeTilesets_foldl_snd (chunks : List MapChunk)
    (acc : Registry × List GidRemap) :
    (chunks.foldl mergeTilesetsChunkStep acc).2 =
      acc.2 ++ chunkRemaps acc.1 chunks := by
  induction chunks generalizing acc with
  | nil => simp [chunkRemaps]
  | cons c rest ih =>
    rw [List.foldl_cons, ih]
    simp only [chunkRemaps]
    rw [show (mergeTilesetsChunkStep acc c).2 =
        acc.2 ++ [(processChunkTilesets acc.1 c.tmj.tilesets).2] from rfl,
      show (mergeTilesetsChunkStep acc c).1 =
        (processChunkTilesets acc.1 c.tmj.tilesets).1 from rfl,
      List.append_assoc]
    rfl

theorem mergeTilesets_snd (chunks : List MapChunk) :
    (mergeTilesets chunks).2 =
      chunkRemaps { globalTilesets := [], nextFirstGid := 1 } chunks := by
  have h := mergeTilesets_foldl_snd chunks
    ({ globalTilesets := [], nextFirstGid := 1 }, [])
  simpa using h

theorem chunkRemaps_covers (chunks : List MapChunk) (reg : Registry) (i : Nat)
    (hi : i < chunks.length) (ts : RawTilesetRef) (g : Nat)
    (hts : ts ∈ (chunks.getD i default).tmj.tilesets)
    (hcov : coversGid ts g)
    (huniq : ∀ ts' ∈ (chunks.getD i default).tmj.tilesets,
      coversGid ts' g → ts' = ts) :
    ((chunkRemaps reg chunks).getD i emptyRemap) g =
      some (firstgidOfKey
        ((chunks.flatMap (fun c => c.tmj.tilesets)).foldl regStep reg)
        (keyOf ts) + (g - ts.firstgid)) := by
  induction chunks generalizing reg i with
  | nil => exact absurd hi (by simp)
  | cons c rest ih =>
    cases i with
    | zero =>
      simp only [chunkRemaps, List.getD_cons_zero, List.flatMap_cons,
        List.foldl_append]
      have h1 := processChunk_remap_covers c.tmj.tilesets (reg, emptyRemap)
        ts g hts hcov huniq
      rw [show (processChunkTilesets reg c.tmj.tilesets).2 g =
        (c.tmj.tilesets.foldl processTilesetStep (reg, emptyRemap)).2 g from rfl, h1]
      obtain ⟨e, he⟩ := foldl_regStep_key_present c.tmj.tilesets reg ts hts
      have hstable := foldl_regStep_find?_stable
        (rest.flatMap (fun c => c.tmj.tilesets)) _ (keyOf ts) e he
      simp only [firstgidOfKey, he, hstable]
    | succ j =>
      simp only [chunkRemaps, List.getD_cons_succ, List.flatMap_cons,
        List.foldl_append]
      have hj : j < rest.length := by simpa using hi
      rw [show (processChunkTilesets reg c.tmj.tilesets).1 =
        c.tmj.tilesets.foldl regStep reg from
          processChunkTilesets_foldl_fst c.tmj.tilesets (reg, emptyRemap)]
      exact ih (c.tmj.tilesets.foldl regStep reg) j hj hts huniq

/-! ## C2: the GID remap preserves tile identity -/

/-- **C2.** For every chunk `i` and every GID `g` inside the range
`[firstGid, firstGid + tileCount)` of a tileset `ts` of that chunk (`ts`
being the only tileset of the chunk covering `g`, as in any well-formed map),
the chunk's `GidRemap` sends `g` to `gts.firstgid + (g - ts.firstgid)` where
`gts` is the corresponding global tileset (the one with `ts`'s identity key):
the remapped GID minus the global tileset's `firstgid` equals the original
GID minus the original tileset's `firstgid`, so tile identity is preserved;
`mergeTileLayers` then writes exactly this remapped value (see C4). -/
theorem gidRemap_preserves_tile_identity (chunks : List MapChunk) (i : Nat)
    (hi : i < chunks.length) (ts : RawTilesetRef) (g : Nat)
    (hts : ts ∈ (chunks.getD i default).tmj.tilesets)
    (hcov : coversGid ts g)
    (huniq : ∀ ts' ∈ (chunks.getD i default).tmj.tilesets,
      coversGid ts' g → ts' = ts) :
    ∃ gts ∈ (mergeTilesets chunks).1, keyOf gts = keyOf ts ∧
      ((mergeTilesets chunks).2.getD i emptyRemap) g =
        some (gts.firstgid + (g - ts.firstgid)) := by
  have htsflat : ts ∈ chunks.flatMap (fun c => c.tmj.tilesets) := by
    refine List.mem_flatMap.mpr ⟨chunks.getD i default, ?_, hts⟩
    rw [List.getD_eq_getElem?_getD, List.getElem?_eq_getElem hi]
    exact List.getElem_mem hi
  obtain ⟨e, he⟩ := foldl_regStep_key_present
    (chunks.flatMap (fun c => c.tmj.tilesets))
    { globalTilesets := [], nextFirstGid := 1 } ts htsflat
  refine ⟨e, ?_, ?_, ?_⟩
  · rw [mergeTilesets_fst]
    exact List.mem_of_find?_eq_some he
  · have h := List.find?_some he
    simpa using h
  · rw [mergeTilesets_snd, chunkRemaps_covers chunks _ i hi ts g hts hcov huniq]
    simp only [firstgidOfKey, he]

/-- Witness for C2 at a concrete input: in the two-chunk demo merge, chunk 1's
remap sends GID 2 (local tile 1 of the shared tileset) to
`gts.firstgid + (2 - 1)` for the deduplicated global tileset `gts`. -/
theorem gidRemap_preserves_tile_identity_witness :
    ∃ gts ∈ (mergeTilesets [demoChunkA, demoChunkB]).1,
      keyOf gts = keyOf demoTileset ∧
      ((mergeTilesets [demoChunkA, demoChunkB]).2.getD 1 emptyRemap) 2 =
        some (gts.firstgid + (2 - demoTileset.firstgid)) :=
  gidRemap_preserves_tile_identity [demoChunkA, demoChunkB] 1 (by decide)
    demoTileset 2 (by decide) (by decide) (by decide)

/-! ## Tile-layer data lemmas -/

theorem foldl_flatMap {α β σ : Type} (l : List α) (f : α → List β)
    (g : σ → β → σ) (s : σ) :
    (l.flatMap f).foldl g s = l.foldl (fun acc a => (f a).foldl g acc) s := by
  induction l generalizing s with
  | nil => rfl
  | cons a rest ih => simp [List.flatMap_cons, List.foldl_append, ih]

theorem writeCell_eq (src : RawTileLayer) (offsetX offsetY : Int) (bw bh : Nat)
    (remap : GidRemap) (acc : List Nat) (ly lx : Nat) :
    writeCell src offsetX offsetY bw bh remap acc ly lx =
      match cellWrite src offsetX offsetY bw bh remap ly lx with
      | none => acc
      | some (i, v) => acc.set i v := by
  unfold writeCell cellWrite
  by_cases h0 : src.data.getD (ly * src.width + lx) 0 = 0
  · simp only [h0, if_pos rfl, ite_true]
  · simp only [h0, ite_false]
    by_cases hoob : offsetX + (lx : Int) < 0 ∨ offsetY + (ly : Int) < 0 ∨
        (bw : Int) ≤ offsetX + (lx : Int) ∨ (bh : Int) ≤ offsetY + (ly : Int)
    · simp [hoob]
    · simp [hoob]

theorem mergeOneTileLayerData_eq_applyWrites (src : RawTileLayer)
    (offsetX offsetY : Int) (bw bh : Nat) (remap : GidRemap) :
    mergeOneTileLayerData src offsetX offsetY bw bh remap =
      applyWrites (List.replicate (bw * bh) 0)
        ((cellList src.width src.height).map
          (fun c => cellWrite src offsetX offsetY bw bh remap c.1 c.2)) := by
  unfold mergeOneTileLayerData applyWrites cellList
  rw [List.foldl_map, foldl_flatMap]
  apply List.foldl_ext
  intro acc ly _
  rw [List.foldl_map]
  apply List.foldl_ext
  intro acc2 lx _
  exact writeCell_eq src offsetX offsetY bw bh remap acc2 ly lx

theorem applyWrites_length (init : List Nat) (ws : List (Option (Nat × Nat))) :
    (applyWrites init ws).length = init.length := by
  induction ws generalizing init with
  | nil => rfl
  | cons w rest ih =>
    cases w with
    | none => exact ih init
    | some p =>
      rw [show applyWrites init (some p :: rest) =
        applyWrites (init.set p.1 p.2) rest from rfl, ih, List.length_set]

theorem applyWrites_getD_not_written (init : List Nat)
    (ws : List (Option (Nat × Nat))) (j : Nat)
    (h : ∀ i v, some (i, v) ∈ ws → i ≠ j) :
    (applyWrites init ws).getD j 0 = init.getD j 0 := by
  induction ws generalizing init with
  | nil => rfl
  | cons w rest ih =>
    cases w with
    | none =>
      exact ih init (fun i v hm => h i v (List.mem_cons_of_mem _ hm))
    | some p =>
      rw [show applyWrites init (some p :: rest) =
        applyWrites (init.set p.1 p.2) rest from rfl]
      rw [ih _ (fun i v hm => h i v (List.mem_cons_of_mem _ hm))]
      have hne : p.1 ≠ j := h p.1 p.2 (by simp)
      simp [List.getD, List.getElem?_set_ne hne]

/-- Two write descriptors never aim at the same index. -/
def WriteDisj (w1 w2 : Option (Nat × Nat)) : Prop :=
  ∀ i1 v1 i2 v2, w1 = some (i1, v1) → w2 = some (i2, v2) → i1 ≠ i2

theorem applyWrites_getD_written (init : List Nat)
    (ws : List (Option (Nat × Nat))) (i v : Nat) (hi : i < init.length)
    (hmem : some (i, v) ∈ ws) (hdist : ws.Pairwise WriteDisj) :
    (applyWrites init ws).getD i 0 = v := by
  induction ws generalizing init with
  | nil => cases hmem
  | cons w rest ih =>
    rcases List.mem_cons.mp hmem with rfl | hmem'
    · rw [show applyWrites init (some (i, v) :: rest) =
        applyWrites (init.set i v) rest from rfl]
      rw [applyWrites_getD_not_written _ _ _
        (fun i' v' hm =>
          ((List.pairwise_cons.mp hdist).1 _ hm i v i' v' rfl rfl).symm)]
      simp [List.getD, List.getElem?_set_self', hi]
    · cases w with
      | none =>
        exact ih init hi hmem' (List.pairwise_cons.mp hdist).2
      | some p =>
        rw [show applyWrites init (some p :: rest) =
          applyWrites (init.set p.1 p.2) rest from rfl]
        exact ih _ (by rw [List.length_set]; exact hi) hmem'
          (List.pairwise_cons.mp hdist).2

theorem countP_set_pos (l : List Nat) (i v : Nat) (hi : i < l.length)
    (h0 : l.getD i 0 = 0) (hv : v ≠ 0) :
    (l.set i v).countP (fun x => x != 0) = l.countP (fun x => x != 0) + 1 := by
  induction l generalizing i with
  | nil => cases hi
  | cons a rest ih =>
    cases i with
    | zero =>
      have ha : a = 0 := by simpa [List.getD] using h0
      subst ha
      simp [List.countP_cons, hv]
    | succ j =>
      have hj : j < rest.length := by simpa using hi
      have h0' : rest.getD j 0 = 0 := by simpa [List.getD] using h0
      simp only [List.set_cons_succ, List.countP_cons]
      rw [ih j hj h0']
      omega

theorem applyWrites_countP (init : List Nat) (ws : List (Option (Nat × Nat)))
    (hz : ∀ i v, some (i, v) ∈ ws → init.getD i 0 = 0 ∧ i < init.length ∧ 0 < v)
    (hdist : ws.Pairwise WriteDisj) :
    (applyWrites init ws).countP (fun x => x != 0) =
      init.countP (fun x => x != 0) + (ws.filterMap id).length := by
  induction ws generalizing init with
  | nil => simp [applyWrites]
  | cons w rest ih =>
    cases w with
    | none =>
      rw [show applyWrites init (none :: rest) = applyWrites init rest from rfl]
      rw [ih init (fun i v hm => hz i v (List.mem_cons_of_mem _ hm))
        (List.pairwise_cons.mp hdist).2]
      simp [List.filterMap_cons]
    | some p =>
      obtain ⟨hp0, hplen, hpv⟩ := hz p.1 p.2 (by simp)
      rw [show applyWrites init (some p :: rest) =
        applyWrites (init.set p.1 p.2) rest from rfl]
      rw [ih (init.set p.1 p.2) ?hz' (List.pairwise_cons.mp hdist).2]
      · rw [countP_set_pos init p.1 p.2 hplen hp0 (by omega)]
        simp only [List.filterMap_cons, id]
        rw [List.length_cons]
        omega
      case hz' =>
        intro i v hm
        refine ⟨?_, ?_, (hz i v (List.mem_cons_of_mem _ hm)).2.2⟩
        · have hne : p.1 ≠ i :=
            (List.pairwise_cons.mp hdist).1 _ hm p.1 p.2 i v rfl rfl
          rw [show (init.set p.1 p.2).getD i 0 = init.getD i 0 from by
            simp [List.getD, List.getElem?_set_ne hne]]
          exact (hz i v (List.mem_cons_of_mem _ hm)).1
        · rw [List.length_set]
          exact (hz i v (List.mem_cons_of_mem _ hm)).2.1

theorem getD_replicate_zero (n j : Nat) :
    (List.replicate n (0 : Nat)).getD j 0 = 0 := by
  rcases Nat.lt_or_ge j n with hj | hj
  · simp [List.getD, List.getElem?_replicate, hj]
  · rw [List.getD_eq_default]
    simpa using hj

theorem countP_replicate_zero (n : Nat) :
    (List.replicate n (0 : Nat)).countP (fun x => x != 0) = 0 := by
  induction n with
  | zero => rfl
  | succ m ih => simp [List.replicate_succ, List.countP_cons, ih]

theorem cellWrite_some (src : RawTileLayer) (offsetX offsetY : Int) (bw bh : Nat)
    (remap : GidRemap) (ly lx i v : Nat)
    (h : cellWrite src offsetX offsetY bw bh remap ly lx = some (i, v)) :
    src.data.getD (ly * src.width + lx) 0 ≠ 0 ∧
    0 ≤ offsetX + (lx : Int) ∧ offsetX + (lx : Int) < (bw : Int) ∧
    0 ≤ offsetY + (ly : Int) ∧ offsetY + (ly : Int) < (bh : Int) ∧
    i = ((offsetY + (ly : Int)) * (bw : Int) + (offsetX + (lx : Int))).toNat ∧
    v = (remap (src.data.getD (ly * src.width + lx) 0)).getD
      (src.data.getD (ly * src.width + lx) 0) := by
  unfold cellWrite at h
  by_cases h0 : src.data.getD (ly * src.width + lx) 0 = 0
  · rw [if_pos h0] at h
    cases h
  · rw [if_neg h0] at h
    by_cases hoob : offsetX + (lx : Int) < 0 ∨ offsetY + (ly : Int) < 0 ∨
        (bw : Int) ≤ offsetX + (lx : Int) ∨ (bh : Int) ≤ offsetY + (ly : Int)
    · rw [if_pos hoob] at h
      cases h
    · rw [if_neg hoob] at h
      push_neg at hoob
      obtain ⟨h1, h2, h3, h4⟩ := hoob
      rw [Option.some_inj, Prod.mk.injEq] at h
      exact ⟨h0, h1, h3, h2, h4, h.1.symm, h.2.symm⟩

theorem destIndex_lt (bw bh : Nat) (gx gy : Int) (hgx0 : 0 ≤ gx)
    (hgxlt : gx < (bw : Int)) (hgy0 : 0 ≤ gy) (hgylt : gy < (bh : Int)) :
    (gy * (bw : Int) + gx).toNat < bw * bh := by
  have hbw : (0 : Int) < (bw : Int) := lt_of_le_of_lt hgx0 hgxlt
  have hbh : (0 : Int) < (bh : Int) := lt_of_le_of_lt hgy0 hgylt
  have hstep : gy * (bw : Int) + gx < (gy + 1) * (bw : Int) := by
    rw [add_one_mul]
    omega
  have hmul : (gy + 1) * (bw : Int) ≤ (bh : Int) * (bw : Int) :=
    mul_le_mul_of_nonneg_right (by omega) (le_of_lt hbw)
  have hlt : gy * (bw : Int) + gx < ((bw * bh : Nat) : Int) := by
    push_cast
    calc gy * (bw : Int) + gx < (gy + 1) * (bw : Int) := hstep
    _ ≤ (bh : Int) * (bw : Int) := hmul
    _ = (bw : Int) * (bh : Int) := mul_comm _ _
  have hne : bw * bh ≠ 0 := by
    have : (0 : Int) < ((bw * bh : Nat) : Int) := by push_cast; positivity
    omega
  exact (Int.toNat_lt' hne).mpr hlt

theorem destIndex_inj (bw bh : Nat) (gx gy gx' gy' : Int)
    (hgx0 : 0 ≤ gx) (hgxlt : gx < (bw : Int)) (hgy0 : 0 ≤ gy) (_hgylt : gy < (bh : Int))
    (hgx0' : 0 ≤ gx') (hgxlt' : gx' < (bw : Int)) (hgy0' : 0 ≤ gy')
    (_hgylt' : gy' < (bh : Int))
    (heq : (gy * (bw : Int) + gx).toNat = (gy' * (bw : Int) + gx').toNat) :
    gx = gx' ∧ gy = gy' := by
  have hbw : (0 : Int) < (bw : Int) := lt_of_le_of_lt hgx0 hgxlt
  have hnn : 0 ≤ gy * (bw : Int) + gx :=
    add_nonneg (mul_nonneg hgy0 (le_of_lt hbw)) hgx0
  have hnn' : 0 ≤ gy' * (bw : Int) + gx' :=
    add_nonneg (mul_nonneg hgy0' (le_of_lt hbw)) hgx0'
  have heqz : gy * (bw : Int) + gx = gy' * (bw : Int) + gx' := by
    have hc := congrArg (fun n : Nat => (n : Int)) heq
    simpa [Int.toNat_of_nonneg hnn, Int.toNat_of_nonneg hnn'] using hc
  have hx : (gy * (bw : Int) + gx) % (bw : Int) = gx := by
    rw [Int.add_comm, Int.mul_comm, Int.add_mul_emod_self_left]
    exact Int.emod_eq_of_lt hgx0 hgxlt
  have hx' : (gy' * (bw : Int) + gx') % (bw : Int) = gx' := by
    rw [Int.add_comm, Int.mul_comm, Int.add_mul_emod_self_left]
    exact Int.emod_eq_of_lt hgx0' hgxlt'
  have hgx : gx = gx' := by rw [← hx, ← hx', heqz]
  refine ⟨hgx, ?_⟩
  have hmul : gy * (bw : Int) = gy' * (bw : Int) := by omega
  exact mul_right_cancel₀ (ne_of_gt hbw) hmul

theorem cellList_nodup (w h : Nat) : (cellList w h).Nodup := by
  unfold cellList
  refine List.nodup_flatMap.mpr ⟨?_, ?_⟩
  · intro y _
    refine (List.nodup_range w).map ?_
    intro a b hab
    simpa using congrArg Prod.snd hab
  · refine (List.nodup_range h).imp ?_
    intro a b hab p hp1 hp2
    simp only [List.mem_map] at hp1 hp2
    obtain ⟨x, _, rfl⟩ := hp1
    obtain ⟨y, _, he⟩ := hp2
    exact hab (by simpa using (congrArg Prod.fst he).symm)

theorem ws_pairwise (src : RawTileLayer) (offX offY : Int) (bw bh : Nat)
    (remap : GidRemap) :
    ((cellList src.width src.height).map
      (fun c => cellWrite src offX offY bw bh remap c.1 c.2)).Pairwise WriteDisj := by
  rw [List.pairwise_map]
  refine (cellList_nodup src.width src.height).imp ?_
  intro c c' hne i1 v1 i2 v2 h1 h2 hii
  obtain ⟨_, a1, a2, a3, a4, hi1, _⟩ := cellWrite_some _ _ _ _ _ _ _ _ _ _ h1
  obtain ⟨_, b1, b2, b3, b4, hi2, _⟩ := cellWrite_some _ _ _ _ _ _ _ _ _ _ h2
  have heq : ((offY + (c.1 : Int)) * (bw : Int) + (offX + (c.2 : Int))).toNat =
      ((offY + (c'.1 : Int)) * (bw : Int) + (offX + (c'.2 : Int))).toNat := by
    rw [← hi1, ← hi2, hii]
  obtain ⟨hgx, hgy⟩ := destIndex_inj bw bh _ _ _ _ a1 a2 a3 a4 b1 b2 b3 b4 heq
  apply hne
  have hx : c.2 = c'.2 := by omega
  have hy : c.1 = c'.1 := by omega
  exact Prod.ext hy hx

theorem cellWrite_isSome (src : RawTileLayer) (offX offY : Int) (bw bh : Nat)
    (remap : GidRemap) (ly lx : Nat) :
    (cellWrite src offX offY bw bh remap ly lx).isSome =
      (decide (src.data.getD (ly * src.width + lx) 0 ≠ 0) &&
       (decide (0 ≤ offX + (lx : Int)) && decide (offX + (lx : Int) < (bw : Int)) &&
        decide (0 ≤ offY + (ly : Int)) && decide (offY + (ly : Int) < (bh : Int)))) := by
  simp only [cellWrite]
  generalize src.data.getD (ly * src.width + lx) 0 = d
  by_cases h0 : d = 0
  · subst h0
    simp
  · rw [if_neg h0]
    by_cases hoob : offX + (lx : Int) < 0 ∨ offY + (ly : Int) < 0 ∨
        (bw : Int) ≤ offX + (lx : Int) ∨ (bh : Int) ≤ offY + (ly : Int)
    · rw [if_pos hoob]
      rcases hoob with h | h | h | h
      · simp [h0, not_le.mpr h]
      · simp [h0, not_le.mpr h]
      · simp [h0, not_lt.mpr h]
      · simp [h0, not_lt.mpr h]
    · rw [if_neg hoob]
      push_neg at hoob
      obtain ⟨h1, h2, h3, h4⟩ := hoob
      simp [h0, h1, h2, h3, h4]

theorem length_filterMap_eq_countP {α β : Type} (f : α → Option β)
    (l : List α) :
    (l.filterMap f).length = l.countP (fun a => (f a).isSome) := by
  induction l with
  | nil => rfl
  | cons a rest ih =>
    rw [List.filterMap_cons, List.countP_cons]
    cases hfa : f a with
    | none => simp [hfa, ih]
    | some p => simp [hfa, ih]

/-! ## C4: tile-layer placement and cell-count conservation -/

/-- **C4.** For a merged tile layer the destination grid has `bw * bh` cells;
every in-range source cell with non-zero GID whose shifted destination
`(offsetX + localX, offsetY + localY)` lies within `[0, bw) × [0, bh)` holds
exactly the remapped GID at destination index `gy * bw + gx`; and the number
of non-zero cells of the output equals the number of in-bounds non-zero
source cells — out-of-bounds cells are silently dropped and no cell is
duplicated or lost.  (`remap` is assumed to take positive values, which C2
establishes for the remaps `mergeTilesets` builds.) -/
theorem mergeTileLayers_placement_and_conservation (src : RawTileLayer)
    (offX offY : Int) (bw bh : Nat) (remap : GidRemap)
    (hremap : ∀ g v, remap g = some v → 0 < v) :
    (mergeOneTileLayerData src offX offY bw bh remap).length = bw * bh ∧
    (∀ ly lx, ly < src.height → lx < src.width →
      src.data.getD (ly * src.width + lx) 0 ≠ 0 →
      0 ≤ offX + (lx : Int) → offX + (lx : Int) < (bw : Int) →
      0 ≤ offY + (ly : Int) → offY + (ly : Int) < (bh : Int) →
      (mergeOneTileLayerData src offX offY bw bh remap).getD
          ((offY + (ly : Int)) * (bw : Int) + (offX + (lx : Int))).toNat 0 =
        (remap (src.data.getD (ly * src.width + lx) 0)).getD
          (src.data.getD (ly * src.width + lx) 0)) ∧
    (mergeOneTileLayerData src offX offY bw bh remap).countP (fun x => x != 0) =
      (cellList src.width src.height).countP (fun c =>
        decide (src.data.getD (c.1 * src.width + c.2) 0 ≠ 0) &&
        (decide (0 ≤ offX + (c.2 : Int)) && decide (offX + (c.2 : Int) < (bw : Int)) &&
         decide (0 ≤ offY + (c.1 : Int)) && decide (offY + (c.1 : Int) < (bh : Int)))) := by
  have hz : ∀ i v, some (i, v) ∈ (cellList src.width src.height).map
      (fun c => cellWrite src offX offY bw bh remap c.1 c.2) →
      (List.replicate (bw * bh) (0 : Nat)).getD i 0 = 0 ∧
        i < (List.replicate (bw * bh) (0 : Nat)).length ∧ 0 < v := by
    intro i v hm
    obtain ⟨c, _, hcw⟩ := List.mem_map.mp hm
    obtain ⟨hnz, a1, a2, a3, a4, hi, hv⟩ :=
      cellWrite_some _ _ _ _ _ _ _ _ _ _ hcw
    refine ⟨getD_replicate_zero _ _, ?_, ?_⟩
    · rw [List.length_replicate, hi]
      exact destIndex_lt bw bh _ _ a1 a2 a3 a4
    · rw [hv]
      cases hr : remap (src.data.getD (c.1 * src.width + c.2) 0) with
      | none =>
        simp only [hr, Option.getD_none]
        omega
      | some w =>
        simp only [hr, Option.getD_some]
        exact hremap _ _ hr
  refine ⟨?_, ?_, ?_⟩
  · rw [mergeOneTileLayerData_eq_applyWrites, applyWrites_length,
      List.length_replicate]
  · intro ly lx hly hlx hnz hgx0 hgxlt hgy0 hgylt
    rw [mergeOneTileLayerData_eq_applyWrites]
    have hcw : cellWrite src offX offY bw bh remap ly lx =
        some (((offY + (ly : Int)) * (bw : Int) + (offX + (lx : Int))).toNat,
          (remap (src.data.getD (ly * src.width + lx) 0)).getD
            (src.data.getD (ly * src.width + lx) 0)) := by
      unfold cellWrite
      rw [if_neg hnz, if_neg (by push_neg; exact ⟨hgx0, hgy0, hgxlt, hgylt⟩)]
    apply applyWrites_getD_written
    · rw [List.length_replicate]
      exact destIndex_lt bw bh _ _ hgx0 hgxlt hgy0 hgylt
    · refine List.mem_map.mpr ⟨(ly, lx), ?_, hcw⟩
      unfold cellList
      refine List.mem_flatMap.mpr ⟨ly, List.mem_range.mpr hly, ?_⟩
      exact List.mem_map.mpr ⟨lx, List.mem_range.mpr hlx, rfl⟩
    · exact ws_pairwise src offX offY bw bh remap
  · rw [mergeOneTileLayerData_eq_applyWrites,
      applyWrites_countP _ _ hz (ws_pairwise src offX offY bw bh remap),
      countP_replicate_zero,
      show ((cellList src.width src.height).map
          (fun c => cellWrite src offX offY bw bh remap c.1 c.2)).filterMap id =
        (cellList src.width src.height).filterMap
          (fun c => cellWrite src offX offY bw bh remap c.1 c.2) from by
        simp [List.filterMap_map],
      length_filterMap_eq_countP]
    rw [Nat.zero_add]
    apply List.countP_congr
    intro c _
    rw [cellWrite_isSome]

/-- Witness for C4 at a concrete input: the demo 4×4 layer with one non-zero
cell at the origin, placed unshifted in an 8×4 destination. -/
theorem mergeTileLayers_placement_and_conservation_witness :
    (mergeOneTileLayerData (demoTileLayer demoDataA) 0 0 8 4 emptyRemap).length =
      8 * 4 ∧
    (mergeOneTileLayerData (demoTileLayer demoDataA) 0 0 8 4 emptyRemap).getD
        ((0 + ((0 : Nat) : Int)) * ((8 : Nat) : Int) +
          (0 + ((0 : Nat) : Int))).toNat 0 =
      (emptyRemap ((demoTileLayer demoDataA).data.getD
          (0 * (demoTileLayer demoDataA).width + 0) 0)).getD
        ((demoTileLayer demoDataA).data.getD
          (0 * (demoTileLayer demoDataA).width + 0) 0) := by
  have h := mergeTileLayers_placement_and_conservation (demoTileLayer demoDataA)
    0 0 8 4 emptyRemap (fun g v hv => by simp [emptyRemap] at hv)
  exact ⟨h.1, h.2.1 0 0 (by decide) (by decide) (by decide) (by decide)
    (by decide) (by decide) (by decide)⟩

/-! ## Color-engine lemmas -/

/-- A color whose channels are honest bytes. -/
def ValidColor (c : Color) : Prop :=
  c.r ≤ 255 ∧ c.g ≤ 255 ∧ c.b ≤ 255 ∧ c.a ≤ 255

instance (c : Color) : Decidable (ValidColor c) :=
  inferInstanceAs (Decidable (_ ∧ _))

theorem clampColor_valid (c : Color) (h : ValidColor c) : clampColor c = c := by
  obtain ⟨h1, h2, h3, h4⟩ := h
  simp [clampColor, clampByte, Nat.min_eq_left, h1, h2, h3, h4]

theorem colorToKey_inj (c1 c2 : Color) (h : colorToKey c1 = colorToKey c2) :
    c1 = c2 := by
  simp only [colorToKey, Prod.mk.injEq] at h
  obtain ⟨h1, h2, h3, h4⟩ := h
  cases c1; cases c2
  simp_all

theorem exactReplacement_none (changes : List PaletteChange) (p : Color)
    (h : ∀ c ∈ changes, c.fromColor ≠ p) :
    exactReplacement changes p = none := by
  induction changes with
  | nil => rfl
  | cons c rest ih =>
    simp only [exactReplacement, List.map_cons, List.indexOf_cons]
    have hne : colorToKey c.fromColor ≠ colorToKey p :=
      fun hk => h c (by simp) (colorToKey_inj _ _ hk)
    have hbeq : (colorToKey c.fromColor == colorToKey p) = false := by
      simpa using hne
    rw [hbeq, Bool.cond_false, List.getElem?_cons_succ]
    have hrec := ih (fun c' hc' => h c' (List.mem_cons_of_mem _ hc'))
    simpa [exactReplacement] using hrec

theorem exactReplacement_first (changes : List PaletteChange) (p : Color)
    (j : Nat) (pc : PaletteChange) (hj : changes[j]? = some pc)
    (hm : pc.fromColor = p)
    (hfirst : ∀ k, k < j → ∀ pck : PaletteChange,
      changes[k]? = some pck → pck.fromColor ≠ p) :
    exactReplacement changes p = some pc.toColor := by
  induction changes generalizing j with
  | nil => cases hj
  | cons c rest ih =>
    simp only [exactReplacement, List.map_cons, List.indexOf_cons]
    cases j with
    | zero =>
      simp only [List.getElem?_cons_zero, Option.some_inj] at hj
      subst hj
      have hbeq : (colorToKey c.fromColor == colorToKey p) = true :=
        beq_iff_eq.mpr (by rw [hm])
      rw [hbeq, Bool.cond_true]
      simp
    | succ n =>
      have hne : colorToKey c.fromColor ≠ colorToKey p := by
        intro hk
        exact hfirst 0 (Nat.succ_pos n) c List.getElem?_cons_zero
          (colorToKey_inj _ _ hk)
      have hbeq : (colorToKey c.fromColor == colorToKey p) = false := by
        simpa using hne
      rw [hbeq, Bool.cond_false, List.getElem?_cons_succ]
      have hrec := ih n (by simpa using hj)
        (fun k hk pck hpck => hfirst (k + 1) (by omega) pck
          (by simpa using hpck))
      simpa [exactReplacement] using hrec

theorem exactReplacement_some_mem (changes : List PaletteChange) (p : Color)
    (c : Color) (h : exactReplacement changes p = some c) :
    ∃ pc ∈ changes, c = pc.toColor := by
  simp only [exactReplacement] at h
  cases hg : changes[(changes.map (fun c => colorToKey c.fromColor)).indexOf
      (colorToKey p)]? with
  | none => rw [hg] at h; cases h
  | some pc =>
    rw [hg] at h
    have hc : pc.toColor = c := by simpa using h
    exact ⟨pc, List.getElem?_mem hg, hc.symm⟩

theorem transformPixel_transparent (changes : List PaletteChange) (u : Bool)
    (t : Int) (p : Color) (hp : p.a = 0) :
    transformPixel changes u t p = p := by
  unfold transformPixel
  rw [if_pos hp]

theorem transformPixel_exact_nomatch (changes : List PaletteChange) (t : Int)
    (p : Color) (hp : p.a ≠ 0) (h : ∀ c ∈ changes, c.fromColor ≠ p) :
    transformPixel changes false t p = p := by
  unfold transformPixel
  rw [if_neg hp, exactReplacement_none changes p h]
  rfl

theorem transformPixel_exact_match (changes : List PaletteChange) (t : Int)
    (p : Color) (hp : p.a ≠ 0) (j : Nat) (pc : PaletteChange)
    (hj : changes[j]? = some pc) (hm : pc.fromColor = p)
    (hfirst : ∀ k, k < j → ∀ pck : PaletteChange,
      changes[k]? = some pck → pck.fromColor ≠ p)
    (hvalid : ValidColor pc.toColor) :
    transformPixel changes false t p = pc.toColor := by
  unfold transformPixel
  rw [if_neg hp, exactReplacement_first changes p j pc hj hm hfirst]
  exact clampColor_valid _ hvalid

theorem scanBest_go (p : Color) (l : List PaletteChange) (j bi : Nat) (bd : Int) :
    ∃ bi' bd', scanBest p l j (some (bi, bd)) = some (bi', bd') ∧
      ((bi' = bi ∧ bd' = bd ∧
          ∀ (k : Nat) (pc : PaletteChange), l[k]? = some pc → bd ≤ colorDistanceSq p pc.fromColor) ∨
        (∃ (k : Nat) (pc : PaletteChange), l[k]? = some pc ∧ bi' = j + k ∧
          bd' = colorDistanceSq p pc.fromColor ∧ bd' < bd ∧
          (∀ (m : Nat) (pc' : PaletteChange), l[m]? = some pc' → bd' ≤ colorDistanceSq p pc'.fromColor) ∧
          (∀ (m : Nat) (pc' : PaletteChange), m < k → l[m]? = some pc' →
            bd' < colorDistanceSq p pc'.fromColor))) := by
  induction l generalizing j bi bd with
  | nil =>
    refine ⟨bi, bd, rfl, Or.inl ⟨rfl, rfl, ?_⟩⟩
    intro k pc hk
    simp at hk
  | cons c rest ih =>
    rw [show scanBest p (c :: rest) j (some (bi, bd)) =
      scanBest p rest (j + 1)
        (if colorDistanceSq p c.fromColor < bd
         then some (j, colorDistanceSq p c.fromColor) else some (bi, bd)) from rfl]
    by_cases hlt : colorDistanceSq p c.fromColor < bd
    · rw [if_pos hlt]
      obtain ⟨bi', bd', heq, hcase⟩ := ih (j + 1) j (colorDistanceSq p c.fromColor)
      refine ⟨bi', bd', heq, Or.inr ?_⟩
      rcases hcase with ⟨h1, h2, h3⟩ | ⟨k, pc, hk, h1, h2, h3, h4, h5⟩
      · refine ⟨0, c, by simp, by omega, h2, by omega, ?_, ?_⟩
        · intro m pc' hm
          cases m with
          | zero =>
            simp only [List.getElem?_cons_zero, Option.some_inj] at hm
            subst hm
            omega
          | succ m0 =>
            rw [List.getElem?_cons_succ] at hm
            have := h3 m0 pc' hm
            omega
        · intro m pc' hmk _
          omega
      · refine ⟨k + 1, pc, by simpa using hk, by omega, h2, by omega, ?_, ?_⟩
        · intro m pc' hm
          cases m with
          | zero =>
            simp only [List.getElem?_cons_zero, Option.some_inj] at hm
            subst hm
            omega
          | succ m0 =>
            rw [List.getElem?_cons_succ] at hm
            exact h4 m0 pc' hm
        · intro m pc' hmk hm
          cases m with
          | zero =>
            simp only [List.getElem?_cons_zero, Option.some_inj] at hm
            subst hm
            omega
          | succ m0 =>
            rw [List.getElem?_cons_succ] at hm
            exact h5 m0 pc' (by omega) hm
    · rw [if_neg hlt]
      obtain ⟨bi', bd', heq, hcase⟩ := ih (j + 1) bi bd
      refine ⟨bi', bd', heq, ?_⟩
      rcases hcase with ⟨h1, h2, h3⟩ | ⟨k, pc, hk, h1, h2, h3, h4, h5⟩
      · refine Or.inl ⟨h1, h2, ?_⟩
        intro m pc' hm
        cases m with
        | zero =>
          simp only [List.getElem?_cons_zero, Option.some_inj] at hm
          subst hm
          omega
        | succ m0 =>
          rw [List.getElem?_cons_succ] at hm
          exact h3 m0 pc' hm
      · refine Or.inr ⟨k + 1, pc, by simpa using hk, by omega, h2, h3, ?_, ?_⟩
        · intro m pc' hm
          cases m with
          | zero =>
            simp only [List.getElem?_cons_zero, Option.some_inj] at hm
            subst hm
            omega
          | succ m0 =>
            rw [List.getElem?_cons_succ] at hm
            exact h4 m0 pc' hm
        · intro m pc' hmk hm
          cases m with
          | zero =>
            simp only [List.getElem?_cons_zero, Option.some_inj] at hm
            subst hm
            omega
          | succ m0 =>
            rw [List.getElem?_cons_succ] at hm
            exact h5 m0 pc' (by omega) hm

theorem scanBest_spec (p : Color) (c0 : PaletteChange) (rest : List PaletteChange) :
    ∃ bi bd, scanBest p (c0 :: rest) 0 none = some (bi, bd) ∧
      (∃ pc : PaletteChange, (c0 :: rest)[bi]? = some pc ∧ bd = colorDistanceSq p pc.fromColor) ∧
      (∀ (m : Nat) (pc' : PaletteChange), (c0 :: rest)[m]? = some pc' → bd ≤ colorDistanceSq p pc'.fromColor) ∧
      (∀ (m : Nat) (pc' : PaletteChange), m < bi → (c0 :: rest)[m]? = some pc' →
        bd < colorDistanceSq p pc'.fromColor) := by
  rw [show scanBest p (c0 :: rest) 0 none =
    scanBest p rest 1 (some (0, colorDistanceSq p c0.fromColor)) from rfl]
  obtain ⟨bi, bd, heq, hcase⟩ := scanBest_go p rest 1 0 (colorDistanceSq p c0.fromColor)
  rcases hcase with ⟨h1, h2, h3⟩ | ⟨k, pc, hk, h1, h2, h3, h4, h5⟩
  · subst h1
    refine ⟨0, bd, heq, ⟨c0, by simp, h2⟩, ?_, ?_⟩
    · intro m pc' hm
      cases m with
      | zero =>
        simp only [List.getElem?_cons_zero, Option.some_inj] at hm
        subst hm
        omega
      | succ m0 =>
        rw [List.getElem?_cons_succ] at hm
        have := h3 m0 pc' hm
        omega
    · intro m pc' hmk _
      omega
  · subst h1
    refine ⟨1 + k, bd, heq, ⟨pc, ?_, h2⟩, ?_, ?_⟩
    · rw [Nat.add_comm 1 k, List.getElem?_cons_succ]
      exact hk
    · intro m pc' hm
      cases m with
      | zero =>
        simp only [List.getElem?_cons_zero, Option.some_inj] at hm
        subst hm
        omega
      | succ m0 =>
        rw [List.getElem?_cons_succ] at hm
        exact h4 m0 pc' hm
    · intro m pc' hmk hm
      cases m with
      | zero =>
        simp only [List.getElem?_cons_zero, Option.some_inj] at hm
        subst hm
        omega
      | succ m0 =>
        rw [List.getElem?_cons_succ] at hm
        exact h5 m0 pc' (by omega) hm

theorem transformPixel_tolerance_empty (t : Int) (p : Color) (hp : p.a ≠ 0) :
    transformPixel [] true t p = p := by
  unfold transformPixel
  rw [if_neg hp]
  rfl

theorem transformPixel_tolerance_min (changes : List PaletteChange) (t : Int)
    (p : Color) (hp : p.a ≠ 0) (j : Nat) (pc : PaletteChange)
    (hj : changes[j]? = some pc)
    (hmin : ∀ (k : Nat) (pck : PaletteChange), changes[k]? = some pck →
      colorDistanceSq p pc.fromColor ≤ colorDistanceSq p pck.fromColor)
    (hstrict : ∀ (k : Nat) (pck : PaletteChange), k < j → changes[k]? = some pck →
      colorDistanceSq p pc.fromColor < colorDistanceSq p pck.fromColor)
    (hvalid : ValidColor pc.toColor) :
    transformPixel changes true t p =
      if colorDistanceSq p pc.fromColor ≤ t then pc.toColor else p := by
  cases changes with
  | nil => cases hj
  | cons c0 rest =>
    obtain ⟨bi, bd, heq, ⟨pcb, hbi, hbd⟩, hminb, hstrictb⟩ := scanBest_spec p c0 rest
    have hbij : bi = j := by
      rcases Nat.lt_trichotomy bi j with h | h | h
      · exfalso
        have hx1 := hstrict bi pcb h hbi
        have hx2 := hminb j pc hj
        omega
      · exact h
      · exfalso
        have hx1 := hstrictb j pc h hj
        have hx2 := hmin bi pcb hbi
        omega
    subst hbij
    rw [hj] at hbi
    have hpcb : pcb = pc := Option.some_inj.mp hbi.symm
    subst hpcb
    subst hbd
    unfold transformPixel
    rw [if_neg hp, heq]
    by_cases htol : colorDistanceSq p pcb.fromColor ≤ t
    · simp only [htol, ite_true, hj, Option.map_some]
      exact clampColor_valid _ hvalid
    · simp [htol]

/-! ## C5: palette recoloring semantics -/

/-- **C5.** `applyColorMappingsToImageData` returns a fresh image of the same
dimensions (the input is untouched — the function is pure and the output is
rebuilt pixel by pixel); fully transparent pixels pass through unchanged; in
exact mode a non-transparent pixel with no matching `from` is unchanged and a
pixel whose first match is change `j` becomes that change's `to`; in
tolerance mode a pixel is replaced by the `to` of the change at minimum
squared RGBA distance exactly when that minimum is `≤ toleranceSq`, ties
resolving to the earliest-listed change (an empty change list leaves the
pixel unchanged).  `to` colors are assumed byte-valued, as the `Color` data
model prescribes. -/
theorem applyChanges_spec (base : ImageData) (changes : List PaletteChange)
    (useTolerance : Bool) (toleranceSq : Int)
    (hvalid : ∀ c ∈ changes, ValidColor c.toColor) :
    (applyColorMappingsToImageData base changes useTolerance toleranceSq).width =
      base.width ∧
    (applyColorMappingsToImageData base changes useTolerance toleranceSq).height =
      base.height ∧
    (applyColorMappingsToImageData base changes useTolerance toleranceSq).data.length =
      base.data.length ∧
    (∀ (i : Nat) (p : Color), base.data[i]? = some p → p.a = 0 →
      (applyColorMappingsToImageData base changes useTolerance toleranceSq).data[i]? =
        some p) ∧
    (useTolerance = false → ∀ (i : Nat) (p : Color), base.data[i]? = some p →
      p.a ≠ 0 →
      ((∀ c ∈ changes, c.fromColor ≠ p) →
        (applyColorMappingsToImageData base changes useTolerance
          toleranceSq).data[i]? = some p) ∧
      (∀ (j : Nat) (pc : PaletteChange), changes[j]? = some pc →
        pc.fromColor = p →
        (∀ (k : Nat) (pck : PaletteChange), k < j → changes[k]? = some pck →
          pck.fromColor ≠ p) →
        (applyColorMappingsToImageData base changes useTolerance
          toleranceSq).data[i]? = some pc.toColor)) ∧
    (useTolerance = true → ∀ (i : Nat) (p : Color), base.data[i]? = some p →
      p.a ≠ 0 →
      ((changes = [] →
        (applyColorMappingsToImageData base changes useTolerance
          toleranceSq).data[i]? = some p) ∧
      (∀ (j : Nat) (pc : PaletteChange), changes[j]? = some pc →
        (∀ (k : Nat) (pck : PaletteChange), changes[k]? = some pck →
          colorDistanceSq p pc.fromColor ≤ colorDistanceSq p pck.fromColor) →
        (∀ (k : Nat) (pck : PaletteChange), k < j → changes[k]? = some pck →
          colorDistanceSq p pc.fromColor < colorDistanceSq p pck.fromColor) →
        (applyColorMappingsToImageData base changes useTolerance
          toleranceSq).data[i]? =
          some (if colorDistanceSq p pc.fromColor ≤ toleranceSq
            then pc.toColor else p)))) := by
  refine ⟨rfl, rfl, by simp [applyColorMappingsToImageData], ?_, ?_, ?_⟩
  · intro i p hi hp
    show (base.data.map (transformPixel changes useTolerance toleranceSq))[i]? = _
    rw [List.getElem?_map, hi]
    exact congrArg some
      (transformPixel_transparent changes useTolerance toleranceSq p hp)
  · rintro rfl i p hi hp
    constructor
    · intro hnm
      show (base.data.map (transformPixel changes false toleranceSq))[i]? = _
      rw [List.getElem?_map, hi]
      exact congrArg some
        (transformPixel_exact_nomatch changes toleranceSq p hp hnm)
    · intro j pc hj hm hfirst
      show (base.data.map (transformPixel changes false toleranceSq))[i]? = _
      rw [List.getElem?_map, hi]
      exact congrArg some
        (transformPixel_exact_match changes toleranceSq p hp j pc hj hm
          (fun k hk pck hpck => hfirst k pck hk hpck)
          (hvalid pc (List.getElem?_mem hj)))
  · rintro rfl i p hi hp
    constructor
    · rintro rfl
      show (base.data.map (transformPixel [] true toleranceSq))[i]? = _
      rw [List.getElem?_map, hi]
      exact congrArg some (transformPixel_tolerance_empty toleranceSq p hp)
    · intro j pc hj hmin hstrict
      show (base.data.map (transformPixel changes true toleranceSq))[i]? = _
      rw [List.getElem?_map, hi]
      exact congrArg some
        (transformPixel_tolerance_min changes toleranceSq p hp j pc hj hmin
          hstrict (hvalid pc (List.getElem?_mem hj)))

/-- Witness for C5 at a concrete input: recoloring a solid-red 2×2 image with
the single change red → green in exact mode turns pixel 0 green. -/
theorem applyChanges_spec_witness :
    (applyColorMappingsToImageData demoImage demoChanges false 400).data[0]? =
      some demoGreen := by
  have h := applyChanges_spec demoImage demoChanges false 400 (by decide)
  exact ((h.2.2.2.2.1 rfl 0 demoRed (by decide) (by decide)).2 0
    ⟨demoRed, demoGreen⟩ (by decide) (by decide)
    (fun k pck hk hpck => absurd hk (by omega)))

/-! ## C9: exact-mode idempotence -/

theorem transformPixel_exact_idem (changes : List PaletteChange) (t : Int)
    (hvalid : ∀ c ∈ changes, ValidColor c.toColor)
    (hdisj : ∀ c ∈ changes, ∀ c' ∈ changes, c.toColor ≠ c'.fromColor)
    (p : Color) :
    transformPixel changes false t (transformPixel changes false t p) =
      transformPixel changes false t p := by
  by_cases hp : p.a = 0
  · rw [transformPixel_transparent changes false t p hp,
      transformPixel_transparent changes false t p hp]
  · cases hrepl : exactReplacement changes p with
    | none =>
      have hfp : transformPixel changes false t p = p := by
        unfold transformPixel
        rw [if_neg hp, hrepl]
        rfl
      rw [hfp, hfp]
    | some c =>
      obtain ⟨pc, hpc, rfl⟩ := exactReplacement_some_mem changes p c hrepl
      have hfp : transformPixel changes false t p = pc.toColor := by
        unfold transformPixel
        rw [if_neg hp, hrepl]
        exact clampColor_valid _ (hvalid pc hpc)
      rw [hfp]
      by_cases hca : pc.toColor.a = 0
      · exact transformPixel_transparent changes false t _ hca
      · exact transformPixel_exact_nomatch changes t _ hca
          (fun c' hc' heq => hdisj pc hpc c' hc' heq.symm)

/-- **C9.** In exact mode `applyChanges` is idempotent whenever no change's
`to` color occurs among the `from` colors (with byte-valued `to` colors, as
the data model prescribes): applying the same change list twice equals
applying it once. -/
theorem applyChanges_idempotent_exact (base : ImageData)
    (changes : List PaletteChange) (toleranceSq : Int)
    (hvalid : ∀ c ∈ changes, ValidColor c.toColor)
    (hdisj : ∀ c ∈ changes, ∀ c' ∈ changes, c.toColor ≠ c'.fromColor) :
    applyColorMappingsToImageData
      (applyColorMappingsToImageData base changes false toleranceSq)
      changes false toleranceSq =
    applyColorMappingsToImageData base changes false toleranceSq := by
  unfold applyColorMappingsToImageData
  simp only [List.map_map]
  congr 1
  apply List.map_congr_left
  intro p _
  exact transformPixel_exact_idem changes toleranceSq hvalid hdisj p

/-- Witness for C9 at a concrete input: the demo red→green recoloring is
idempotent (green is not a `from` color). -/
theorem applyChanges_idempotent_exact_witness :
    applyColorMappingsToImageData
      (applyColorMappingsToImageData demoImage demoChanges false 400)
      demoChanges false 400 =
    applyColorMappingsToImageData demoImage demoChanges false 400 :=
  applyChanges_idempotent_exact demoImage demoChanges 400 (by decide) (by decide)

/-! ## Palette-extraction lemmas -/

theorem bumpCount_keys (counts : List ((Nat × Nat × Nat × Nat) × Nat))
    (key : Nat × Nat × Nat × Nat) :
    (bumpCount counts key).map Prod.fst =
      insertNewKey (counts.map Prod.fst) key := by
  induction counts with
  | nil => simp [bumpCount, insertNewKey]
  | cons e rest ih =>
    obtain ⟨k, n⟩ := e
    by_cases hk : k = key
    · subst hk
      simp [bumpCount, insertNewKey]
    · simp only [bumpCount, if_neg hk, List.map_cons, ih, insertNewKey]
      by_cases hmem : key ∈ rest.map Prod.fst
      · rw [if_pos hmem, if_pos (by simp [hmem])]
      · rw [if_neg hmem, if_neg (by simp [hmem, Ne.symm hk])]
        simp

theorem countStep_foldl_keys (pixels : List Color)
    (acc : List ((Nat × Nat × Nat × Nat) × Nat)) :
    ((pixels.foldl countStep acc).map Prod.fst) =
      ((pixels.filter (fun c => c.a != 0)).map
          (fun c => quantizeColor c.r c.g c.b c.a)).foldl
        insertNewKey (acc.map Prod.fst) := by
  induction pixels generalizing acc with
  | nil => rfl
  | cons p rest ih =>
    by_cases hp : p.a = 0
    · rw [List.foldl_cons, show countStep acc p = acc from by simp [countStep, hp]]
      rw [show (p :: rest).filter (fun c => c.a != 0) =
        rest.filter (fun c => c.a != 0) from by simp [List.filter_cons, hp]]
      exact ih acc
    · rw [List.foldl_cons,
        show countStep acc p = bumpCount acc (quantizeColor p.r p.g p.b p.a)
          from by simp [countStep, hp]]
      rw [show (p :: rest).filter (fun c => c.a != 0) =
        p :: rest.filter (fun c => c.a != 0) from by simp [List.filter_cons, hp]]
      rw [List.map_cons, List.foldl_cons, ih, bumpCount_keys]

theorem bucketCounts_keys (img : ImageData) (sampleStep : Nat) :
    (bucketCounts img sampleStep).map Prod.fst =
      firstSeen (((sampledPixels img sampleStep).filter (fun c => c.a != 0)).map
        (fun c => quantizeColor c.r c.g c.b c.a)) := by
  have h := countStep_foldl_keys (sampledPixels img sampleStep) []
  simpa [firstSeen, bucketCounts] using h

theorem insertByCountDesc_perm (x : (Nat × Nat × Nat × Nat) × Nat)
    (l : List ((Nat × Nat × Nat × Nat) × Nat)) :
    (insertByCountDesc x l).Perm (x :: l) := by
  induction l with
  | nil => exact List.Perm.refl _
  | cons y ys ih =>
    by_cases h : x.2 < y.2
    · rw [insertByCountDesc, if_pos h]
      exact (ih.cons y).trans (List.Perm.swap x y ys)
    · rw [insertByCountDesc, if_neg h]

theorem sortByCountDesc_perm (l : List ((Nat × Nat × Nat × Nat) × Nat)) :
    (sortByCountDesc l).Perm l := by
  induction l with
  | nil => exact List.Perm.refl _
  | cons x rest ih =>
    exact (insertByCountDesc_perm x (sortByCountDesc rest)).trans (ih.cons x)

theorem insertByCountDesc_sorted (x : (Nat × Nat × Nat × Nat) × Nat)
    (l : List ((Nat × Nat × Nat × Nat) × Nat))
    (h : l.Pairwise (fun a b => b.2 ≤ a.2)) :
    (insertByCountDesc x l).Pairwise (fun a b => b.2 ≤ a.2) := by
  induction l with
  | nil => simp [insertByCountDesc]
  | cons y ys ih =>
    obtain ⟨hy, hys⟩ := List.pairwise_cons.mp h
    by_cases hlt : x.2 < y.2
    · rw [insertByCountDesc, if_pos hlt]
      rw [List.pairwise_cons]
      refine ⟨?_, ih hys⟩
      intro b hb
      rcases List.mem_cons.mp ((insertByCountDesc_perm x ys).mem_iff.mp hb)
        with rfl | hb
      · omega
      · exact hy b hb
    · rw [insertByCountDesc, if_neg hlt]
      rw [List.pairwise_cons]
      refine ⟨?_, h⟩
      intro b hb
      rcases List.mem_cons.mp hb with rfl | hb
      · omega
      · have := hy b hb
        omega

theorem sortByCountDesc_sorted (l : List ((Nat × Nat × Nat × Nat) × Nat)) :
    (sortByCountDesc l).Pairwise (fun a b => b.2 ≤ a.2) := by
  induction l with
  | nil => exact List.Pairwise.nil
  | cons x rest ih => exact insertByCountDesc_sorted x (sortByCountDesc rest) ih

theorem filter_insertByCountDesc_ne (x : (Nat × Nat × Nat × Nat) × Nat)
    (l : List ((Nat × Nat × Nat × Nat) × Nat)) (n : Nat) (hx : x.2 ≠ n) :
    (insertByCountDesc x l).filter (fun e => e.2 == n) =
      l.filter (fun e => e.2 == n) := by
  induction l with
  | nil => simp [insertByCountDesc, List.filter_cons, hx]
  | cons y ys ih =>
    by_cases hlt : x.2 < y.2
    · rw [insertByCountDesc, if_pos hlt, List.filter_cons, List.filter_cons]
      rw [ih]
    · rw [insertByCountDesc, if_neg hlt, List.filter_cons,
        show ((x.2 == n) : Bool) = false from by simpa using hx]
      simp

theorem filter_insertByCountDesc_eq (x : (Nat × Nat × Nat × Nat) × Nat)
    (l : List ((Nat × Nat × Nat × Nat) × Nat)) :
    (insertByCountDesc x l).filter (fun e => e.2 == x.2) =
      x :: l.filter (fun e => e.2 == x.2) := by
  induction l with
  | nil => simp [insertByCountDesc, List.filter_cons]
  | cons y ys ih =>
    by_cases hlt : x.2 < y.2
    · rw [insertByCountDesc, if_pos hlt, List.filter_cons,
        show ((y.2 == x.2) : Bool) = false from by simp; omega,
        List.filter_cons,
        show ((y.2 == x.2) : Bool) = false from by simp; omega, ih]
      simp
    · rw [insertByCountDesc, if_neg hlt, List.filter_cons,
        show ((x.2 == x.2) : Bool) = true from by simp]
      simp

theorem sortByCountDesc_stable (l : List ((Nat × Nat × Nat × Nat) × Nat))
    (n : Nat) :
    (sortByCountDesc l).filter (fun e => e.2 == n) =
      l.filter (fun e => e.2 == n) := by
  induction l with
  | nil => rfl
  | cons x rest ih =>
    by_cases hx : x.2 = n
    · subst hx
      rw [sortByCountDesc, filter_insertByCountDesc_eq, ih, List.filter_cons,
        show ((x.2 == x.2) : Bool) = true from by simp]
      simp
    · rw [sortByCountDesc, filter_insertByCountDesc_ne x _ n hx, ih,
        List.filter_cons, show ((x.2 == n) : Bool) = false from by simpa using hx]
      simp

theorem countStep_foldl_const (c0 : Color) (hc0 : c0.a ≠ 0)
    (pixels : List Color) (h : ∀ p ∈ pixels, p = c0) (m : Nat) :
    pixels.foldl countStep [(quantizeColor c0.r c0.g c0.b c0.a, m)] =
      [(quantizeColor c0.r c0.g c0.b c0.a, m + pixels.length)] := by
  induction pixels generalizing m with
  | nil => simp
  | cons p rest ih =>
    have hp : p = c0 := h p (by simp)
    subst hp
    rw [List.foldl_cons,
      show countStep [(quantizeColor p.r p.g p.b p.a, m)] p =
        [(quantizeColor p.r p.g p.b p.a, m + 1)] from by
          simp [countStep, hc0, bumpCount],
      ih (fun q hq => h q (List.mem_cons_of_mem _ hq)) (m + 1)]
    simp only [List.length_cons]
    rw [Nat.add_assoc, Nat.add_comm 1 rest.length]

/-! ## C8: dominant-color extraction -/

/-- **C8.** `extractDominantColors` returns at most `maxColors` colors (and
exactly `min maxColors (number of distinct buckets)` — fewer buckets give a
shorter result, not an error); the bucket record's keys are exactly the
distinct quantized buckets of the non-transparent sampled pixels in
row-major stepped scan order (fully transparent pixels are never counted);
the sorted entry list is ordered by descending count, and entries of equal
count keep their first-encounter order (stability); the result is the
dequantized keys of the first `maxColors` sorted entries, each the bucket
representative `(bucket <<< 4) ||| bucket` per channel; and an all-one-color
opaque sample set yields exactly one color. -/
theorem extractPalette_spec (img : ImageData) (maxColors sampleStep : Nat)
    (c0 : Color) :
    (extractDominantColors img maxColors sampleStep).length ≤ maxColors ∧
    (extractDominantColors img maxColors sampleStep).length =
      min maxColors (bucketCounts img sampleStep).length ∧
    (bucketCounts img sampleStep).map Prod.fst =
      firstSeen (((sampledPixels img sampleStep).filter (fun c => c.a != 0)).map
        (fun c => quantizeColor c.r c.g c.b c.a)) ∧
    (sortByCountDesc (bucketCounts img sampleStep)).Pairwise
      (fun a b => b.2 ≤ a.2) ∧
    (∀ n : Nat, (sortByCountDesc (bucketCounts img sampleStep)).filter
        (fun e => e.2 == n) =
      (bucketCounts img sampleStep).filter (fun e => e.2 == n)) ∧
    extractDominantColors img maxColors sampleStep =
      ((sortByCountDesc (bucketCounts img sampleStep)).take maxColors).map
        (fun e => dequantizeColor e.1) ∧
    (∀ c ∈ extractDominantColors img maxColors sampleStep,
      ∃ k ∈ (bucketCounts img sampleStep).map Prod.fst, c = dequantizeColor k) ∧
    ((∀ p ∈ sampledPixels img sampleStep, p = c0) → c0.a ≠ 0 →
      sampledPixels img sampleStep ≠ [] → 1 ≤ maxColors →
      extractDominantColors img maxColors sampleStep =
        [dequantizeColor (quantizeColor c0.r c0.g c0.b c0.a)]) := by
  have hmapeq : extractDominantColors img maxColors sampleStep =
      ((sortByCountDesc (bucketCounts img sampleStep)).take maxColors).map
        (fun e => dequantizeColor e.1) := by
    unfold extractDominantColors
    rw [List.map_map]
    rfl
  have hlen : (extractDominantColors img maxColors sampleStep).length =
      min maxColors (bucketCounts img sampleStep).length := by
    rw [hmapeq, List.length_map, List.length_take,
      (sortByCountDesc_perm (bucketCounts img sampleStep)).length_eq]
  refine ⟨?_, hlen, bucketCounts_keys img sampleStep,
    sortByCountDesc_sorted _, fun n => sortByCountDesc_stable _ n, hmapeq,
    ?_, ?_⟩
  · rw [hlen]
    exact Nat.min_le_left _ _
  · intro c hc
    rw [hmapeq] at hc
    obtain ⟨e, he, rfl⟩ := List.mem_map.mp hc
    have hes : e ∈ sortByCountDesc (bucketCounts img sampleStep) :=
      List.mem_of_mem_take he
    have hec : e ∈ bucketCounts img sampleStep :=
      (sortByCountDesc_perm _).mem_iff.mp hes
    exact ⟨e.1, List.mem_map_of_mem Prod.fst hec, rfl⟩
  · intro hconst hc0 hne hmax
    have hcounts : bucketCounts img sampleStep =
        [(quantizeColor c0.r c0.g c0.b c0.a,
          (sampledPixels img sampleStep).length)] := by
      unfold bucketCounts
      cases hs : sampledPixels img sampleStep with
      | nil => exact absurd hs hne
      | cons p rest =>
        have hp : p = c0 := hconst p (by rw [hs]; simp)
        subst hp
        rw [List.foldl_cons,
          show countStep [] p = [(quantizeColor p.r p.g p.b p.a, 1)] from by
            simp [countStep, hc0, bumpCount]]
        rw [countStep_foldl_const p hc0 rest
          (fun q hq => hconst q (by rw [hs]; exact List.mem_cons_of_mem _ hq)) 1]
        simp [Nat.add_comm]
    rw [hmapeq, hcounts]
    cases maxColors with
    | zero => omega
    | succ m => simp [sortByCountDesc, insertByCountDesc]

/-- Witness for C8 at a concrete input: sampling the solid-red 2×2 demo image
at stride 1 yields exactly the one bucket representative for red. -/
theorem extractPalette_spec_witness :
    extractDominantColors demoImage 16 1 =
      [dequantizeColor (quantizeColor demoRed.r demoRed.g demoRed.b demoRed.a)] ∧
    (extractDominantColors demoImage 16 1).length ≤ 16 := by
  have h := extractPalette_spec demoImage 16 1 demoRed
  exact ⟨h.2.2.2.2.2.2.2 (by decide) (by decide) (by decide) (by decide), h.1⟩

end TmjApp
